import Mathlib

/-!
# Verification of the libdtf comparison engine

This development gives a shallow embedding of the libdtf diff engine:
the four cooperating tree-walkers (key, type, value, array) over parsed
JSON documents (`src/key_checker.rs`, `src/type_checker.rs`,
`src/value_checker.rs`, `src/array_checker.rs`) and over parsed YAML
documents (`src/yaml/*.rs`), together with proofs of the behavioural
properties stated in the specification.

Modelling conventions:
* `serde_json::Value` / `serde_yaml::Value` become the inductive types
  `JVal` / `YVal`.  JSON numbers are abstracted as integers (the claims
  under study do not depend on the numeric tower); objects/mappings are
  association lists in iteration order, with the map invariant (no
  duplicate keys) carried as an explicit well-formedness predicate.
* Rust code that can panic (`unwrap` on `Option`) is embedded as an
  `Option`-valued function; `none` models a panic.
* `HashMap`/`HashSet` iteration order is unspecified in Rust; the model
  fixes first-insertion order.  All properties proved about the parts
  that touch hash containers are order-insensitive (memberships and
  per-value counts), so they hold for every iteration order.
-/

namespace Dtf

/-- `Config` from `diff_types.rs`: the `array_same_order` switch. -/
structure Config where
  array_same_order : Bool
deriving DecidableEq, Repr

/-- `WorkingFile` from `diff_types.rs`: a file label. -/
structure WorkingFile where
  name : String
deriving DecidableEq, Repr

/-- `WorkingContext` from `diff_types.rs`. -/
structure WorkingContext where
  file_a : WorkingFile
  file_b : WorkingFile
  config : Config
deriving DecidableEq, Repr

/-- `KeyDiff` from `diff_types.rs`. -/
structure KeyDiff where
  key : String
  has : String
  misses : String
deriving DecidableEq, Repr

/-- `TypeDiff` from `diff_types.rs`. -/
structure TypeDiff where
  key : String
  type1 : String
  type2 : String
deriving DecidableEq, Repr

/-- `ValueDiff` from `diff_types.rs`. -/
structure ValueDiff where
  key : String
  value1 : String
  value2 : String
deriving DecidableEq, Repr

/-- `ArrayDiffDesc` from `diff_types.rs`. -/
inductive ArrayDiffDesc where
  | AHas
  | AMisses
  | BHas
  | BMisses
deriving DecidableEq, Repr

/-- `ArrayDiff` from `diff_types.rs`. -/
structure ArrayDiff where
  key : String
  descriptor : ArrayDiffDesc
  value : String
deriving DecidableEq, Repr

/-- `ValueType` from `diff_types.rs`. -/
inductive ValueType where
  | Null
  | Boolean
  | Number
  | String
  | Array
  | Object
deriving DecidableEq, Repr

/-- The `Display` implementation of `ValueType` (`diff_types.rs`). -/
def ValueType.toDisplayString (t : ValueType) :=
  match t with
  | .Null => "null"
  | .Boolean => "bool"
  | .Number => "number"
  | .String => "string"
  | .Array => "array"
  | .Object => "object"

/-- `format_key` from `lib.rs` / `json/mod.rs` / `yaml/mod.rs`. -/
def format_key (key_in current_key : String) : String :=
  if key_in.isEmpty then current_key else key_in ++ "." ++ current_key

/-- The path built for array descent: `format!("\x7b\x7d[\x7b\x7d]", key, index)`. -/
def indexKey (key : String) (i : Nat) : String :=
  key ++ "[" ++ toString i ++ "]"

/-- `serde_json::Value`.  Numbers are abstracted as integers; objects are
association lists in iteration order (`serde_json::Map` keeps keys unique). -/
inductive JVal where
  | null
  | bool (b : Bool)
  | num (n : Int)
  | str (s : String)
  | arr (items : List JVal)
  | obj (entries : List (String × JVal))

mutual
/-- `PartialEq` on `serde_json::Value`: structural equality. -/
def JVal.beq : JVal → JVal → Bool
  | .null, .null => true
  | .bool a, .bool b => a == b
  | .num a, .num b => a == b
  | .str a, .str b => a == b
  | .arr xs, .arr ys => jbeqList xs ys
  | .obj es, .obj fs => jbeqEntries es fs
  | _, _ => false

/-- `PartialEq` on JSON arrays. -/
def jbeqList : List JVal → List JVal → Bool
  | [], [] => true
  | x :: xs, y :: ys => x.beq y && jbeqList xs ys
  | _, _ => false

/-- `PartialEq` on JSON objects (entry lists in matching order; the
`serde_json` map is ordered, so equal maps have equal entry lists). -/
def jbeqEntries : List (String × JVal) → List (String × JVal) → Bool
  | [], [] => true
  | e :: es, f :: fs => e.1 == f.1 && e.2.beq f.2 && jbeqEntries es fs
  | _, _ => false
end

/-- `serde_json::Map::get`: lookup of a key in an object. -/
def JObj.get (es : List (String × JVal)) (k : String) : Option JVal :=
  match es with
  | [] => none
  | e :: rest => if e.1 = k then some e.2 else JObj.get rest k

/-- Escape of one character in serde_json's string serialization. -/
def jsonEscapeChar (c : Char) : String :=
  if c = '"' then "\\\""
  else if c = '\\' then "\\\\"
  else if c = '\n' then "\\n"
  else if c = '\r' then "\\r"
  else if c = '\t' then "\\t"
  else if c.val < 32 then "\\u" ++ (Nat.toDigits 16 c.val.toNat).asString.leftpad 4 '0'
  else String.singleton c

/-- serde_json's string escaping. -/
def jsonEscape (s : String) : String :=
  String.join (s.data.map jsonEscapeChar)

mutual
/-- `serde_json::Value::to_string()`: the compact canonical serialization. -/
def JVal.toJsonString : JVal → String
  | .null => "null"
  | .bool true => "true"
  | .bool false => "false"
  | .num n => toString n
  | .str s => "\"" ++ jsonEscape s ++ "\""
  | .arr items => "[" ++ jsonStringList items ++ "]"
  | .obj entries => "\x7b" ++ jsonStringEntries entries ++ "\x7d"

/-- Comma-separated serialization of array elements. -/
def jsonStringList : List JVal → String
  | [] => ""
  | [x] => x.toJsonString
  | x :: xs => x.toJsonString ++ "," ++ jsonStringList xs

/-- Comma-separated serialization of object entries. -/
def jsonStringEntries : List (String × JVal) → String
  | [] => ""
  | [e] => "\"" ++ jsonEscape e.1 ++ "\":" ++ e.2.toJsonString
  | e :: es => "\"" ++ jsonEscape e.1 ++ "\":" ++ e.2.toJsonString ++ "," ++ jsonStringEntries es
end

/-- `value.as_str().map_or_else(|| value.to_string(), |v| v.to_owned())`:
the rendering used by the JSON value and array checkers — a string renders
as its raw content, anything else via `to_string()`. -/
def JVal.renderLeaf : JVal → String
  | .str s => s
  | v => v.toJsonString

/-- `get_type` from `type_checker.rs`. -/
def JVal.getType : JVal → ValueType
  | .null => .Null
  | .bool _ => .Boolean
  | .num _ => .Number
  | .str _ => .String
  | .arr _ => .Array
  | .obj _ => .Object

mutual
/-- Well-formedness of a parsed JSON value: object keys are unique at every
level (the `serde_json::Map` invariant). -/
def JVal.wfb : JVal → Bool
  | .null | .bool _ | .num _ | .str _ => true
  | .arr items => jwfbList items
  | .obj entries => decide ((entries.map Prod.fst).Nodup) && jwfbEntries entries

/-- Well-formedness of all values of an array. -/
def jwfbList : List JVal → Bool
  | [] => true
  | x :: xs => x.wfb && jwfbList xs

/-- Well-formedness of all values of an object. -/
def jwfbEntries : List (String × JVal) → Bool
  | [] => true
  | e :: es => e.2.wfb && jwfbEntries es
end

/-- Well-formedness of an object given by its entry list. -/
def JObj.wfb (es : List (String × JVal)) : Bool :=
  decide ((es.map Prod.fst).Nodup) && jwfbEntries es

/-!
## The JSON Key Comparator (`src/key_checker.rs`)

`check` collects the formatted keys of `b` (`get_b_keys`), walks `a`
(`check_a`, which threads the pending `b_keys` set), and finally emits the
remaining `b_keys` (`check_b`).  The `HashSet` of the source is modelled by
a list in `b`'s iteration order; `remove` becomes `List.erase`.
-/

mutual
/-- `Checker<KeyDiff>::check` from `key_checker.rs`. -/
def keyCheck (ctx : WorkingContext) (key : String)
    (a b : List (String × JVal)) : List KeyDiff :=
  let r := keyCheckA ctx key a b (b.map fun e => format_key key e.1)
  r.1 ++ r.2.map fun fk => KeyDiff.mk fk ctx.file_b.name ctx.file_a.name
termination_by (sizeOf a, 1)

/-- `check_a` from `key_checker.rs`: walk `a`'s entries, recursing on shared
keys (and removing them from the pending `b_keys`), emitting an
`A has / B misses` diff for keys absent from `b`. -/
def keyCheckA (ctx : WorkingContext) (key : String)
    (a b : List (String × JVal)) (bKeys : List String) :
    List KeyDiff × List String :=
  match a with
  | [] => ([], bKeys)
  | (k, av) :: rest =>
    let fk := format_key key k
    match JObj.get b k with
    | some bv =>
      let ds := findKeyDiffsInValues ctx fk av bv
      let r := keyCheckA ctx key rest b (bKeys.erase fk)
      (ds ++ r.1, r.2)
    | none =>
      let r := keyCheckA ctx key rest b bKeys
      (KeyDiff.mk fk ctx.file_a.name ctx.file_b.name :: r.1, r.2)
termination_by (sizeOf a, 0)

/-- `find_key_diffs_in_values` from `key_checker.rs`: recurse into object
pairs; in ordered mode recurse index-by-index into equal-length array pairs. -/
def findKeyDiffsInValues (ctx : WorkingContext) (key : String)
    (a b : JVal) : List KeyDiff :=
  (match a, b with
   | .obj ea, .obj eb => keyCheck ctx key ea eb
   | _, _ => []) ++
  (match a, b with
   | .arr xs, .arr ys =>
     if ctx.config.array_same_order ∧ xs.length = ys.length then
       findKeyDiffsInArrays ctx key 0 xs ys
     else []
   | _, _ => [])
termination_by (sizeOf a, 2)

/-- `find_key_diffs_in_arrays` from `key_checker.rs`: the enumerated
element-by-element walk (of arrays already known to have equal length). -/
def findKeyDiffsInArrays (ctx : WorkingContext) (key : String) (i : Nat) :
    List JVal → List JVal → List KeyDiff
  | x :: xs, y :: ys =>
    findKeyDiffsInValues ctx (indexKey key i) x y ++
      findKeyDiffsInArrays ctx key (i + 1) xs ys
  | _, _ => []
termination_by xs _ => (sizeOf xs, 0)
end

/-!
## The JSON Type Comparator (`src/type_checker.rs`)
-/

mutual
/-- `Checker<TypeDiff>::check` from `type_checker.rs`: walk `a`'s entries
and handle every key also present in `b`. -/
def typeCheck (ctx : WorkingContext) (key : String)
    (a b : List (String × JVal)) : List TypeDiff :=
  match a with
  | [] => []
  | (k, av) :: rest =>
    (match JObj.get b k with
     | some bv => findTypeDiffsInValues ctx (format_key key k) av bv
     | none => []) ++ typeCheck ctx key rest b
termination_by (sizeOf a, 1)

/-- `find_type_diffs_in_values` from `type_checker.rs`: recurse into object
pairs, in ordered mode recurse into equal-length array pairs, then emit a
`TypeDiff` when the two kind tags differ. -/
def findTypeDiffsInValues (ctx : WorkingContext) (key : String)
    (a b : JVal) : List TypeDiff :=
  ((match a, b with
    | .obj ea, .obj eb => typeCheck ctx key ea eb
    | _, _ => []) ++
   (match a, b with
    | .arr xs, .arr ys =>
      if ctx.config.array_same_order ∧ xs.length = ys.length then
        findTypeDiffsInArrays ctx key 0 xs ys
      else []
    | _, _ => [])) ++
  (if a.getType ≠ b.getType then
    [TypeDiff.mk key a.getType.toDisplayString b.getType.toDisplayString]
   else [])
termination_by (sizeOf a, 2)

/-- `find_type_diffs_in_arrays` from `type_checker.rs`. -/
def findTypeDiffsInArrays (ctx : WorkingContext) (key : String) (i : Nat) :
    List JVal → List JVal → List TypeDiff
  | x :: xs, y :: ys =>
    findTypeDiffsInValues ctx (indexKey key i) x y ++
      findTypeDiffsInArrays ctx key (i + 1) xs ys
  | _, _ => []
termination_by xs _ => (sizeOf xs, 0)
end

/-!
## The JSON Value Comparator (`src/value_checker.rs`)
-/

mutual
/-- `Checker<ValueDiff>::check` from `value_checker.rs`. -/
def valueCheck (ctx : WorkingContext) (key : String)
    (a b : List (String × JVal)) : List ValueDiff :=
  match a with
  | [] => []
  | (k, av) :: rest =>
    (match JObj.get b k with
     | some bv => findValueDiffsInValues ctx (format_key key k) av bv
     | none => []) ++ valueCheck ctx key rest b
termination_by (sizeOf a, 1)

/-- `find_value_diffs_in_values` from `value_checker.rs`: recurse into
object pairs; else, in ordered mode, recurse into equal-length array pairs;
else compare the two values as opaque wholes and render both sides
(`as_str` for strings, `to_string` otherwise). -/
def findValueDiffsInValues (ctx : WorkingContext) (key : String)
    (a b : JVal) : List ValueDiff :=
  match a, b with
  | .obj ea, .obj eb => valueCheck ctx key ea eb
  | .arr xs, .arr ys =>
    if ctx.config.array_same_order ∧ xs.length = ys.length then
      findValueDiffsInArrays ctx key 0 xs ys
    else if ¬((JVal.arr xs).beq (JVal.arr ys)) then
      [ValueDiff.mk key (JVal.arr xs).renderLeaf (JVal.arr ys).renderLeaf]
    else []
  | a, b =>
    if ¬(a.beq b) then [ValueDiff.mk key a.renderLeaf b.renderLeaf] else []
termination_by (sizeOf a, 2)

/-- `find_value_diffs_in_arrays` from `value_checker.rs`. -/
def findValueDiffsInArrays (ctx : WorkingContext) (key : String) (i : Nat) :
    List JVal → List JVal → List ValueDiff
  | x :: xs, y :: ys =>
    findValueDiffsInValues ctx (indexKey key i) x y ++
      findValueDiffsInArrays ctx key (i + 1) xs ys
  | _, _ => []
termination_by xs _ => (sizeOf xs, 0)
end

/-!
## The JSON Array Comparator (`src/array_checker.rs`)

`fill_diff_vectors` is the `contains`-based set difference of the JSON
implementation: `a_has = b_misses = a.filter(|x| !b.contains(x))` and
`b_has = a_misses = b.filter(|x| !a.contains(x))`.
-/

/-- `<[T]>::contains` via `PartialEq`, as used by `fill_diff_vectors`. -/
def jContains (l : List JVal) (x : JVal) : Bool :=
  l.any fun y => y.beq x

/-- The four vectors of `fill_diff_vectors` from `array_checker.rs`,
emitted in source order (`AHas`, `AMisses`, `BHas`, `BMisses`) with the
string rendering of each element. -/
def fillDiffVectorsEmit (key : String) (xs ys : List JVal) : List ArrayDiff :=
  let aHas := xs.filter fun x => !(jContains ys x)
  let bHas := ys.filter fun x => !(jContains xs x)
  let aMisses := ys.filter fun x => !(jContains xs x)
  let bMisses := xs.filter fun x => !(jContains ys x)
  (aHas.map fun v => ArrayDiff.mk key .AHas v.renderLeaf) ++
  (aMisses.map fun v => ArrayDiff.mk key .AMisses v.renderLeaf) ++
  (bHas.map fun v => ArrayDiff.mk key .BHas v.renderLeaf) ++
  (bMisses.map fun v => ArrayDiff.mk key .BMisses v.renderLeaf)

mutual
/-- `Checker<ArrayDiff>::check` from `array_checker.rs`: a no-op in ordered
mode, otherwise a walk over the keys shared by `a` and `b`. -/
def arrayCheck (ctx : WorkingContext) (key : String)
    (a b : List (String × JVal)) : List ArrayDiff :=
  if ctx.config.array_same_order then []
  else arrayCheckEntries ctx key a b
termination_by (sizeOf a, 1)

/-- The shared-key loop of `Checker<ArrayDiff>::check`. -/
def arrayCheckEntries (ctx : WorkingContext) (key : String)
    (a b : List (String × JVal)) : List ArrayDiff :=
  match a with
  | [] => []
  | (k, av) :: rest =>
    (match JObj.get b k with
     | some bv => findArrayDiffsInValues ctx (format_key key k) av bv
     | none => []) ++ arrayCheckEntries ctx key rest b
termination_by (sizeOf a, 0)

/-- `find_array_diffs_in_values` from `array_checker.rs`: recurse into
object pairs (through the gated `check`), and apply `fill_diff_vectors`
to array pairs. -/
def findArrayDiffsInValues (ctx : WorkingContext) (key : String)
    (a b : JVal) : List ArrayDiff :=
  (match a, b with
   | .obj ea, .obj eb => arrayCheck ctx key ea eb
   | _, _ => []) ++
  (match a, b with
   | .arr xs, .arr ys => fillDiffVectorsEmit key xs ys
   | _, _ => [])
termination_by (sizeOf a, 2)
end

/-!
## The YAML value model (`serde_yaml::Value`, used by `src/yaml/*.rs`)

Mapping keys are arbitrary values, so the YAML checkers can panic when
they format a key path (`a_key.as_str().unwrap()`); such panics are
modelled by `Option`-valued checkers returning `none`.
-/

/-- `serde_yaml::Value`.  Numbers are abstracted as integers; mappings are
association lists in iteration order (`serde_yaml::Mapping` preserves
insertion order and keeps keys unique). -/
inductive YVal where
  | null
  | bool (b : Bool)
  | num (n : Int)
  | str (s : String)
  | seq (items : List YVal)
  | map (entries : List (YVal × YVal))
  | tagged (tag : String) (val : YVal)

mutual
/-- `PartialEq` on `serde_yaml::Value`: structural equality (mappings in
matching iteration order). -/
def YVal.beq : YVal → YVal → Bool
  | .null, .null => true
  | .bool a, .bool b => a == b
  | .num a, .num b => a == b
  | .str a, .str b => a == b
  | .seq xs, .seq ys => ybeqList xs ys
  | .map es, .map fs => ybeqEntries es fs
  | .tagged t v, .tagged u w => t == u && v.beq w
  | _, _ => false

/-- `PartialEq` on YAML sequences. -/
def ybeqList : List YVal → List YVal → Bool
  | [], [] => true
  | x :: xs, y :: ys => x.beq y && ybeqList xs ys
  | _, _ => false

/-- `PartialEq` on YAML mappings. -/
def ybeqEntries : List (YVal × YVal) → List (YVal × YVal) → Bool
  | [], [] => true
  | e :: es, f :: fs => e.1.beq f.1 && e.2.beq f.2 && ybeqEntries es fs
  | _, _ => false
end

/-- `Value::as_str`. -/
def YVal.asStr : YVal → Option String
  | .str s => some s
  | _ => none

/-- `Value::as_sequence`. -/
def YVal.asSeq : YVal → Option (List YVal)
  | .seq xs => some xs
  | _ => none

/-- `Value::is_sequence`. -/
def YVal.isSeq : YVal → Bool
  | .seq _ => true
  | _ => false

/-- `serde_yaml::Mapping::get`: lookup of a key value in a mapping. -/
def YMap.get (es : List (YVal × YVal)) (k : YVal) : Option YVal :=
  match es with
  | [] => none
  | e :: rest => if e.1.beq k then some e.2 else YMap.get rest k

/-- The `Stringable::to_string` implementation from `yaml/diff_types.rs`:
scalars render naturally, every sequence renders as `"array"`, every
mapping as `"mapping"`, every tagged value as `"tagged"`. -/
def yToString : YVal → String
  | .null => "null"
  | .bool b => toString b
  | .num n => toString n
  | .str s => s
  | .seq _ => "array"
  | .map _ => "mapping"
  | .tagged _ _ => "tagged"

/-- `a.as_str().map_or_else(|| a.to_string(), |v| v.to_owned())` over the
YAML `Stringable` rendering. -/
def yRender (v : YVal) : String :=
  match v with
  | .str s => s
  | v => yToString v

/-- `get_type` from `yaml/type_checker.rs` (tagged values are reported as
numbers, per the source's `TODO`). -/
def yGetType : YVal → ValueType
  | .null => .Null
  | .bool _ => .Boolean
  | .num _ => .Number
  | .str _ => .String
  | .seq _ => .Array
  | .map _ => .Object
  | .tagged _ _ => .Number

/-!
## The YAML Key Comparator (`src/yaml/key_checker.rs`)

`find_key_diffs_in_arrays` of this file calls `a.as_mapping().unwrap()` on
a value that is a *sequence* at every call site, so it panics whenever it
is reached (ordered mode, shared equal-length sequence pair).
-/

/-- `get_b_keys` from `yaml/key_checker.rs`: formats every key of `b`,
panicking (`none`) on the first non-string key. -/
def ygetBKeys (key : String) (b : List (YVal × YVal)) : Option (List String) :=
  match b with
  | [] => some []
  | e :: rest =>
    match e.1.asStr with
    | none => none
    | some s =>
      match ygetBKeys key rest with
      | none => none
      | some r => some (format_key key s :: r)

mutual
/-- `Checker<KeyDiff>::check` from `yaml/key_checker.rs`. -/
def ykeyCheck (ctx : WorkingContext) (key : String)
    (a b : List (YVal × YVal)) : Option (List KeyDiff) :=
  match ygetBKeys key b with
  | none => none
  | some bKeys =>
    match ykeyCheckA ctx key a b bKeys with
    | none => none
    | some r =>
      some (r.1 ++ r.2.map fun fk =>
        KeyDiff.mk fk ctx.file_b.name ctx.file_a.name)
termination_by (sizeOf a, 1)

/-- `check_a` from `yaml/key_checker.rs`: every key of `a` is formatted
with `as_str().unwrap()` before the lookup in `b`. -/
def ykeyCheckA (ctx : WorkingContext) (key : String)
    (a b : List (YVal × YVal)) (bKeys : List String) :
    Option (List KeyDiff × List String) :=
  match a with
  | [] => some ([], bKeys)
  | (k, av) :: rest =>
    match k.asStr with
    | none => none
    | some ks =>
      let fk := format_key key ks
      match YMap.get b k with
      | some bv =>
        match yfindKeyDiffsInValues ctx fk av bv with
        | none => none
        | some ds =>
          match ykeyCheckA ctx key rest b (bKeys.erase fk) with
          | none => none
          | some r => some (ds ++ r.1, r.2)
      | none =>
        match ykeyCheckA ctx key rest b bKeys with
        | none => none
        | some r =>
          some (KeyDiff.mk fk ctx.file_a.name ctx.file_b.name :: r.1, r.2)
termination_by (sizeOf a, 0)

/-- `find_key_diffs_in_values` from `yaml/key_checker.rs`. -/
def yfindKeyDiffsInValues (ctx : WorkingContext) (key : String)
    (a b : YVal) : Option (List KeyDiff) :=
  match (match a, b with
         | .map ea, .map eb => ykeyCheck ctx key ea eb
         | _, _ => some []),
        (match a, b with
         | .seq xs, .seq ys =>
           if ctx.config.array_same_order ∧ xs.length = ys.length then
             yfindKeyDiffsInArrays ctx key (.seq xs) (.seq ys)
           else some []
         | _, _ => some []) with
  | some d1, some d2 => some (d1 ++ d2)
  | _, _ => none
termination_by (sizeOf a, 3)

/-- `find_key_diffs_in_arrays` from `yaml/key_checker.rs`: the source
iterates `a.as_mapping().unwrap()`, but `a` is a sequence at every call
site, so the unwrap panics (`none`). -/
def yfindKeyDiffsInArrays (ctx : WorkingContext) (key : String)
    (a b : YVal) : Option (List KeyDiff) :=
  match a with
  | .map es => yfindKeyDiffsInArraysAux ctx key 0 es b
  | _ => none
termination_by (sizeOf a, 2)

/-- The enumerated loop of `find_key_diffs_in_arrays`: pairs each *key* of
the mapping with `b.as_sequence().unwrap()[i]`. -/
def yfindKeyDiffsInArraysAux (ctx : WorkingContext) (key : String) (i : Nat)
    (es : List (YVal × YVal)) (b : YVal) : Option (List KeyDiff) :=
  match es with
  | [] => some []
  | (ak, _) :: rest =>
    match b.asSeq with
    | none => none
    | some bseq =>
      match bseq[i]? with
      | none => none
      | some bi =>
        match yfindKeyDiffsInValues ctx (indexKey key i) ak bi,
              yfindKeyDiffsInArraysAux ctx key (i + 1) rest b with
        | some d, some r => some (d ++ r)
        | _, _ => none
termination_by (sizeOf es, 0)
end

/-!
## The YAML Type Comparator (`src/yaml/type_checker.rs`)
-/

mutual
/-- `Checker<TypeDiff>::check` from `yaml/type_checker.rs`: only *shared*
keys are formatted (and can therefore panic). -/
def ytypeCheck (ctx : WorkingContext) (key : String)
    (a b : List (YVal × YVal)) : Option (List TypeDiff) :=
  match a with
  | [] => some []
  | (k, av) :: rest =>
    match YMap.get b k with
    | some bv =>
      match k.asStr with
      | none => none
      | some ks =>
        match yfindTypeDiffsInValues ctx (format_key key ks) av bv,
              ytypeCheck ctx key rest b with
        | some d, some r => some (d ++ r)
        | _, _ => none
    | none => ytypeCheck ctx key rest b
termination_by (sizeOf a, 1)

/-- `find_type_diffs_in_values` from `yaml/type_checker.rs`. -/
def yfindTypeDiffsInValues (ctx : WorkingContext) (key : String)
    (a b : YVal) : Option (List TypeDiff) :=
  match (match a, b with
         | .map ea, .map eb => ytypeCheck ctx key ea eb
         | _, _ => some []),
        (match a, b with
         | .seq xs, .seq ys =>
           if ctx.config.array_same_order ∧ xs.length = ys.length then
             yfindTypeDiffsInArrays ctx key 0 xs ys
           else some []
         | _, _ => some []) with
  | some d1, some d2 =>
    some (d1 ++ d2 ++
      (if yGetType a ≠ yGetType b then
        [TypeDiff.mk key (yGetType a).toDisplayString
          (yGetType b).toDisplayString]
       else []))
  | _, _ => none
termination_by (sizeOf a, 2)

/-- `find_type_diffs_in_arrays` from `yaml/type_checker.rs`. -/
def yfindTypeDiffsInArrays (ctx : WorkingContext) (key : String) (i : Nat) :
    List YVal → List YVal → Option (List TypeDiff)
  | x :: xs, y :: ys =>
    match yfindTypeDiffsInValues ctx (indexKey key i) x y,
          yfindTypeDiffsInArrays ctx key (i + 1) xs ys with
    | some d, some r => some (d ++ r)
    | _, _ => none
  | _, _ => some []
termination_by xs _ => (sizeOf xs, 0)
end

/-!
## The YAML Value Comparator (`src/yaml/value_checker.rs`)

Unequal sequence pairs compared as opaque wholes produce the fixed
sentinel `"Array differences present"` on both sides; unequal pairs where
exactly one side is a sequence produce nothing.
-/

mutual
/-- `Checker<ValueDiff>::check` from `yaml/value_checker.rs`. -/
def yvalueCheck (ctx : WorkingContext) (key : String)
    (a b : List (YVal × YVal)) : Option (List ValueDiff) :=
  match a with
  | [] => some []
  | (k, av) :: rest =>
    match YMap.get b k with
    | some bv =>
      match k.asStr with
      | none => none
      | some ks =>
        match yfindValueDiffsInValues ctx (format_key key ks) av bv,
              yvalueCheck ctx key rest b with
        | some d, some r => some (d ++ r)
        | _, _ => none
    | none => yvalueCheck ctx key rest b
termination_by (sizeOf a, 1)

/-- `find_value_diffs_in_values` from `yaml/value_checker.rs`. -/
def yfindValueDiffsInValues (ctx : WorkingContext) (key : String)
    (a b : YVal) : Option (List ValueDiff) :=
  match a, b with
  | .map ea, .map eb => yvalueCheck ctx key ea eb
  | .seq xs, .seq ys =>
    if ctx.config.array_same_order ∧ xs.length = ys.length then
      yfindValueDiffsInArrays ctx key 0 xs ys
    else if ¬((YVal.seq xs).beq (YVal.seq ys)) then
      some [ValueDiff.mk key "Array differences present"
        "Array differences present"]
    else some []
  | a, b =>
    if ¬(a.beq b) ∧ ¬a.isSeq ∧ ¬b.isSeq then
      some [ValueDiff.mk key (yRender a) (yRender b)]
    else some []
termination_by (sizeOf a, 2)

/-- `find_value_diffs_in_arrays` from `yaml/value_checker.rs`. -/
def yfindValueDiffsInArrays (ctx : WorkingContext) (key : String) (i : Nat) :
    List YVal → List YVal → Option (List ValueDiff)
  | x :: xs, y :: ys =>
    match yfindValueDiffsInValues ctx (indexKey key i) x y,
          yfindValueDiffsInArrays ctx key (i + 1) xs ys with
    | some d, some r => some (d ++ r)
    | _, _ => none
  | _, _ => some []
termination_by xs _ => (sizeOf xs, 0)
end

/-!
## The YAML Array Comparator (`src/yaml/array_checker.rs`)

This is the multiset implementation: occurrence counts over the canonical
`Stringable` rendering of the elements, with `calculate_difference`
replicating each value `count_a - count_b` times (when positive).
-/

/-- One step of `count_items`: `*occurrence_counts.entry(s).or_insert(0) += 1`
(the `HashMap` is modelled in first-insertion order). -/
def ybump : List (String × Int) → String → List (String × Int)
  | [], s => [(s, 1)]
  | (k, c) :: rest, s =>
    if k = s then (k, c + 1) :: rest else (k, c) :: ybump rest s

/-- `count_items` from `yaml/array_checker.rs`. -/
def ycountItems (items : List YVal) : List (String × Int) :=
  items.foldl (fun acc it => ybump acc (yToString it)) []

/-- `ocurrence_counts.get(key).copied().unwrap_or(0)`. -/
def ylookupCount (m : List (String × Int)) (k : String) : Int :=
  match m with
  | [] => 0
  | (k', c) :: rest => if k' = k then c else ylookupCount rest k

/-- `calculate_difference` from `yaml/array_checker.rs`: for each counted
value, push `count_a - count_b` copies (the `for _ in 0..diff` loop is
empty for non-positive differences). -/
def ycalculateDifference (ca cb : List (String × Int)) : List YVal :=
  match ca with
  | [] => []
  | (k, c) :: rest =>
    List.replicate (c - ylookupCount cb k).toNat (YVal.str k) ++
      ycalculateDifference rest cb

/-- `count_occurrences` from `yaml/array_checker.rs`: returns
`(a_has, a_misses, b_has, b_misses)` with `a_misses = b_has.clone()` and
`b_misses = a_has.clone()`. -/
def ycountOccurrences (xs ys : List YVal) :
    List YVal × List YVal × List YVal × List YVal :=
  let ca := ycountItems xs
  let cb := ycountItems ys
  let aHas := ycalculateDifference ca cb
  let bHas := ycalculateDifference cb ca
  (aHas, bHas, bHas, aHas)

/-- The `ArrayDiff` construction of `yaml/array_checker.rs`:
`value.as_str().map_or_else(|| value.as_str().unwrap().to_string(), ...)`
(a non-string value would hit the panicking `unwrap`). -/
def yemit (key : String) (desc : ArrayDiffDesc) (vs : List YVal) :
    Option (List ArrayDiff) :=
  match vs with
  | [] => some []
  | v :: rest =>
    match v.asStr with
    | none => none
    | some s =>
      match yemit key desc rest with
      | none => none
      | some r => some (ArrayDiff.mk key desc s :: r)

mutual
/-- `Checker<ArrayDiff>::check` from `yaml/array_checker.rs`: a no-op in
ordered mode. -/
def yarrayCheck (ctx : WorkingContext) (key : String)
    (a b : List (YVal × YVal)) : Option (List ArrayDiff) :=
  if ctx.config.array_same_order then some []
  else yarrayCheckEntries ctx key a b
termination_by (sizeOf a, 1)

/-- The shared-key loop of the YAML `Checker<ArrayDiff>::check`. -/
def yarrayCheckEntries (ctx : WorkingContext) (key : String)
    (a b : List (YVal × YVal)) : Option (List ArrayDiff) :=
  match a with
  | [] => some []
  | (k, av) :: rest =>
    match YMap.get b k with
    | some bv =>
      match k.asStr with
      | none => none
      | some ks =>
        match yfindArrayDiffsInValues ctx (format_key key ks) av bv,
              yarrayCheckEntries ctx key rest b with
        | some d, some r => some (d ++ r)
        | _, _ => none
    | none => yarrayCheckEntries ctx key rest b
termination_by (sizeOf a, 0)

/-- `find_array_diffs_in_values` from `yaml/array_checker.rs`. -/
def yfindArrayDiffsInValues (ctx : WorkingContext) (key : String)
    (a b : YVal) : Option (List ArrayDiff) :=
  match (match a, b with
         | .map ea, .map eb => yarrayCheck ctx key ea eb
         | _, _ => some []),
        (match a, b with
         | .seq xs, .seq ys =>
           let r := ycountOccurrences xs ys
           (match yemit key .AHas r.1, yemit key .AMisses r.2.1,
                  yemit key .BHas r.2.2.1, yemit key .BMisses r.2.2.2 with
            | some e1, some e2, some e3, some e4 =>
              some (e1 ++ e2 ++ e3 ++ e4)
            | _, _, _, _ => none)
         | _, _ => some []) with
  | some d1, some d2 => some (d1 ++ d2)
  | _, _ => none
termination_by (sizeOf a, 2)
end

/-!
## Spec-side variants without array recursion

Modelled from the spec ("Mode exclusivity": Key/Type/Value comparators
never recurse into array interiors when `array_same_order = false`): the
same comparators with the array-recursion branch removed.  C4 is settled
by comparing the source comparators against these in unordered mode.
-/

mutual
/-- The Key Comparator as the spec describes it without ordered-array
recursion: only nested objects are descended into. -/
def keyCheckNoArr (ctx : WorkingContext) (key : String)
    (a b : List (String × JVal)) : List KeyDiff :=
  let r := keyCheckANoArr ctx key a b (b.map fun e => format_key key e.1)
  r.1 ++ r.2.map fun fk => KeyDiff.mk fk ctx.file_b.name ctx.file_a.name
termination_by (sizeOf a, 1)

/-- `check_a` of the no-array-recursion Key Comparator. -/
def keyCheckANoArr (ctx : WorkingContext) (key : String)
    (a b : List (String × JVal)) (bKeys : List String) :
    List KeyDiff × List String :=
  match a with
  | [] => ([], bKeys)
  | (k, av) :: rest =>
    let fk := format_key key k
    match JObj.get b k with
    | some bv =>
      let ds := findKeyDiffsInValuesNoArr ctx fk av bv
      let r := keyCheckANoArr ctx key rest b (bKeys.erase fk)
      (ds ++ r.1, r.2)
    | none =>
      let r := keyCheckANoArr ctx key rest b bKeys
      (KeyDiff.mk fk ctx.file_a.name ctx.file_b.name :: r.1, r.2)
termination_by (sizeOf a, 0)

/-- Value descent of the no-array-recursion Key Comparator. -/
def findKeyDiffsInValuesNoArr (ctx : WorkingContext) (key : String)
    (a b : JVal) : List KeyDiff :=
  match a, b with
  | .obj ea, .obj eb => keyCheckNoArr ctx key ea eb
  | _, _ => []
termination_by (sizeOf a, 2)
end

mutual
/-- The Type Comparator without ordered-array recursion. -/
def typeCheckNoArr (ctx : WorkingContext) (key : String)
    (a b : List (String × JVal)) : List TypeDiff :=
  match a with
  | [] => []
  | (k, av) :: rest =>
    (match JObj.get b k with
     | some bv => findTypeDiffsInValuesNoArr ctx (format_key key k) av bv
     | none => []) ++ typeCheckNoArr ctx key rest b
termination_by (sizeOf a, 1)

/-- Value descent of the no-array-recursion Type Comparator. -/
def findTypeDiffsInValuesNoArr (ctx : WorkingContext) (key : String)
    (a b : JVal) : List TypeDiff :=
  (match a, b with
   | .obj ea, .obj eb => typeCheckNoArr ctx key ea eb
   | _, _ => []) ++
  (if a.getType ≠ b.getType then
    [TypeDiff.mk key a.getType.toDisplayString b.getType.toDisplayString]
   else [])
termination_by (sizeOf a, 2)
end

mutual
/-- The Value Comparator without ordered-array recursion: arrays are
always compared as opaque wholes. -/
def valueCheckNoArr (ctx : WorkingContext) (key : String)
    (a b : List (String × JVal)) : List ValueDiff :=
  match a with
  | [] => []
  | (k, av) :: rest =>
    (match JObj.get b k with
     | some bv => findValueDiffsInValuesNoArr ctx (format_key key k) av bv
     | none => []) ++ valueCheckNoArr ctx key rest b
termination_by (sizeOf a, 1)

/-- Value descent of the no-array-recursion Value Comparator. -/
def findValueDiffsInValuesNoArr (ctx : WorkingContext) (key : String)
    (a b : JVal) : List ValueDiff :=
  match a, b with
  | .obj ea, .obj eb => valueCheckNoArr ctx key ea eb
  | a, b =>
    if ¬(a.beq b) then [ValueDiff.mk key a.renderLeaf b.renderLeaf] else []
termination_by (sizeOf a, 2)
end

/-!
## Visited-key predicates for the YAML checkers

These predicates state, structurally on the input pair, that every mapping
key the corresponding checker formats with `as_str().unwrap()` is a
string; for the Key Comparator also that no shared equal-length sequence
pair is visited in ordered mode (reaching one always panics, see
`yfindKeyDiffsInArrays`).  They are used to characterize exactly when each
YAML checker returns normally (C10).
-/

/-- `Value::is_string`. -/
def YVal.isStr : YVal → Bool
  | .str _ => true
  | _ => false

mutual
/-- Visited keys of the YAML Type/Value Comparators (which format only
shared keys) are all strings. -/
def ySharedVisitOkEntries (ctx : WorkingContext) :
    List (YVal × YVal) → List (YVal × YVal) → Bool
  | [], _ => true
  | (k, av) :: rest, b =>
    (match YMap.get b k with
     | some bv => k.isStr && ySharedVisitOkValues ctx av bv
     | none => true) && ySharedVisitOkEntries ctx rest b
termination_by a _ => (sizeOf a, 1)

/-- Value-level descent of `ySharedVisitOkEntries`. -/
def ySharedVisitOkValues (ctx : WorkingContext) (a b : YVal) : Bool :=
  (match a, b with
   | .map ea, .map eb => ySharedVisitOkEntries ctx ea eb
   | _, _ => true) &&
  (match a, b with
   | .seq xs, .seq ys =>
     if ctx.config.array_same_order ∧ xs.length = ys.length then
       ySharedVisitOkSeq ctx xs ys
     else true
   | _, _ => true)
termination_by (sizeOf a, 2)

/-- Element-level descent of `ySharedVisitOkValues` (ordered mode only). -/
def ySharedVisitOkSeq (ctx : WorkingContext) :
    List YVal → List YVal → Bool
  | x :: xs, y :: ys =>
    ySharedVisitOkValues ctx x y && ySharedVisitOkSeq ctx xs ys
  | _, _ => true
termination_by xs _ => (sizeOf xs, 0)
end

mutual
/-- Visited keys of the YAML Array Comparator are all strings (it formats
only shared keys and descends only into shared mapping pairs; in ordered
mode it visits nothing). -/
def yArrayVisitOk (ctx : WorkingContext)
    (a b : List (YVal × YVal)) : Bool :=
  if ctx.config.array_same_order then true
  else yArrayVisitOkEntries ctx a b
termination_by (sizeOf a, 1)

/-- Entry-level descent of `yArrayVisitOk`. -/
def yArrayVisitOkEntries (ctx : WorkingContext) :
    List (YVal × YVal) → List (YVal × YVal) → Bool
  | [], _ => true
  | (k, av) :: rest, b =>
    (match YMap.get b k with
     | some bv => k.isStr && yArrayVisitOkValues ctx av bv
     | none => true) && yArrayVisitOkEntries ctx rest b
termination_by a _ => (sizeOf a, 0)

/-- Value-level descent of `yArrayVisitOk`. -/
def yArrayVisitOkValues (ctx : WorkingContext) (a b : YVal) : Bool :=
  match a, b with
  | .map ea, .map eb => yArrayVisitOk ctx ea eb
  | _, _ => true
termination_by (sizeOf a, 2)
end

mutual
/-- Visited keys of the YAML Key Comparator are all strings (it formats
*every* key of both sides at each visited mapping pair), and no shared
equal-length sequence pair is visited in ordered mode. -/
def yKeyVisitOk (ctx : WorkingContext)
    (a b : List (YVal × YVal)) : Bool :=
  b.all (fun e => e.1.isStr) && yKeyVisitOkA ctx a b
termination_by (sizeOf a, 1)

/-- Walk of `a`'s entries for `yKeyVisitOk`. -/
def yKeyVisitOkA (ctx : WorkingContext) :
    List (YVal × YVal) → List (YVal × YVal) → Bool
  | [], _ => true
  | (k, av) :: rest, b =>
    k.isStr &&
    (match YMap.get b k with
     | some bv => yKeyVisitOkValues ctx av bv
     | none => true) && yKeyVisitOkA ctx rest b
termination_by a _ => (sizeOf a, 0)

/-- Value-level descent of `yKeyVisitOk`: a shared equal-length sequence
pair in ordered mode is a guaranteed panic. -/
def yKeyVisitOkValues (ctx : WorkingContext) (a b : YVal) : Bool :=
  (match a, b with
   | .map ea, .map eb => yKeyVisitOk ctx ea eb
   | _, _ => true) &&
  (match a, b with
   | .seq xs, .seq ys =>
     decide (¬(ctx.config.array_same_order ∧ xs.length = ys.length))
   | _, _ => true)
termination_by (sizeOf a, 2)
end

/-- Swapping the two file labels of a context (the claims about symmetry
compare a run against the run with documents and labels both swapped). -/
def swapContext (ctx : WorkingContext) : WorkingContext :=
  ⟨ctx.file_b, ctx.file_a, ctx.config⟩

/-- Number of `ArrayDiff` records with a given descriptor and value in an
output list (the multiset-conservation claims count these). -/
def countDesc (desc : ArrayDiffDesc) (v : String) (ds : List ArrayDiff) : Nat :=
  (ds.filter fun d => decide (d.descriptor = desc ∧ d.value = v)).length

/-- Shape of one YAML value diff: an unequal non-sequence pair rendered by
the `Stringable` rule, or the sentinel pair. -/
def yDiffShape (d : ValueDiff) : Prop :=
  (∃ va vb : YVal, va.beq vb = false ∧ va.isSeq = false ∧
    vb.isSeq = false ∧ d.value1 = yRender va ∧ d.value2 = yRender vb) ∨
  (d.value1 = "Array differences present" ∧
   d.value2 = "Array differences present")


/-!
## Basic lemmas: structural equality, lookup and well-formedness
-/

theorem jbeq_refl_all : ∀ n : Nat,
    (∀ a : JVal, sizeOf a ≤ n → JVal.beq a a = true) ∧
    (∀ xs : List JVal, sizeOf xs ≤ n → jbeqList xs xs = true) ∧
    (∀ es : List (String × JVal), sizeOf es ≤ n → jbeqEntries es es = true) := by
  intro n
  induction n using Nat.strong_induction_on with
  | _ n ih =>
    refine ⟨?_, ?_, ?_⟩
    · intro a ha
      cases a with
      | null => simp [JVal.beq]
      | bool b => simp [JVal.beq]
      | num v => simp [JVal.beq]
      | str s => simp [JVal.beq]
      | arr xs =>
        have hx : sizeOf xs < n := by simp at ha; omega
        simpa [JVal.beq] using (ih (sizeOf xs) hx).2.1 xs le_rfl
      | obj es =>
        have hx : sizeOf es < n := by simp at ha; omega
        simpa [JVal.beq] using (ih (sizeOf es) hx).2.2 es le_rfl
    · intro xs hxs
      cases xs with
      | nil => simp [jbeqList]
      | cons x rest =>
        have hx : sizeOf x < n := by simp at hxs; omega
        have hr : sizeOf rest < n := by simp at hxs; omega
        simp [jbeqList, (ih (sizeOf x) hx).1 x le_rfl,
          (ih (sizeOf rest) hr).2.1 rest le_rfl]
    · intro es hes
      cases es with
      | nil => simp [jbeqEntries]
      | cons e rest =>
        have hx : sizeOf e.2 < n := by
          obtain ⟨k, v⟩ := e
          simp at hes ⊢
          omega
        have hr : sizeOf rest < n := by simp at hes; omega
        simp [jbeqEntries, (ih (sizeOf e.2) hx).1 e.2 le_rfl,
          (ih (sizeOf rest) hr).2.2 rest le_rfl]

/-- `PartialEq` on JSON values is reflexive. -/
theorem JVal.beq_refl (a : JVal) : JVal.beq a a = true :=
  (jbeq_refl_all (sizeOf a)).1 a le_rfl

/-- An element of a list is `contains`-found in it. -/
theorem jContains_of_mem {l : List JVal} {x : JVal} (h : x ∈ l) :
    jContains l x = true := by
  simp only [jContains, List.any_eq_true]
  exact ⟨x, h, JVal.beq_refl x⟩

/-- A successful lookup comes from an entry of the object. -/
theorem JObj.mem_of_get_eq_some {es : List (String × JVal)} {k : String}
    {v : JVal} (h : JObj.get es k = some v) : (k, v) ∈ es := by
  induction es with
  | nil => simp [JObj.get] at h
  | cons e rest ih =>
    by_cases he : e.1 = k
    · simp [JObj.get, he] at h
      exact List.mem_cons.mpr (Or.inl (by cases e; simp_all))
    · simp [JObj.get, he] at h
      exact List.mem_cons_of_mem _ (ih h)

/-- In an object with unique keys, every entry is found by lookup. -/
theorem JObj.get_eq_some_of_mem {es : List (String × JVal)} {k : String}
    {v : JVal} (hnd : (es.map Prod.fst).Nodup) (h : (k, v) ∈ es) :
    JObj.get es k = some v := by
  induction es with
  | nil => simp at h
  | cons e rest ih =>
    rcases List.mem_cons.mp h with h1 | h1
    · simp [JObj.get, ← h1]
    · simp only [List.map_cons, List.nodup_cons] at hnd
      have he : e.1 ≠ k := by
        intro hek
        have hk : k ∈ rest.map Prod.fst := List.mem_map.mpr ⟨(k, v), h1, rfl⟩
        rw [hek] at hnd
        exact hnd.1 hk
      simp [JObj.get, he]
      exact ih hnd.2 h1

/-- A lookup succeeds exactly for the keys of the object. -/
theorem JObj.get_isSome_iff {es : List (String × JVal)} {k : String} :
    (JObj.get es k).isSome ↔ k ∈ es.map Prod.fst := by
  induction es with
  | nil => simp [JObj.get]
  | cons e rest ih =>
    by_cases he : e.1 = k
    · simp [JObj.get, he]
    · simp [JObj.get, he, ih, Ne.symm he]

/-- A failing lookup means the key is absent. -/
theorem JObj.get_eq_none_iff {es : List (String × JVal)} {k : String} :
    JObj.get es k = none ↔ k ∉ es.map Prod.fst := by
  rw [← JObj.get_isSome_iff]
  cases JObj.get es k <;> simp

/-- Well-formed objects have unique keys. -/
theorem JObj.nodup_of_wfb {es : List (String × JVal)}
    (h : JObj.wfb es = true) : (es.map Prod.fst).Nodup := by
  simp [JObj.wfb] at h
  exact h.1

/-- Entry values of a well-formed object are well-formed. -/
theorem jwfbEntries_mem {es : List (String × JVal)} {k : String} {v : JVal}
    (h : jwfbEntries es = true) (hm : (k, v) ∈ es) : v.wfb = true := by
  induction es with
  | nil => simp at hm
  | cons e rest ih =>
    simp [jwfbEntries] at h
    rcases List.mem_cons.mp hm with h1 | h1
    · have : v = e.2 := by cases e; simp_all
      rw [this]; exact h.1
    · exact ih h.2 h1

/-- Entry values of a well-formed object are well-formed. -/
theorem JObj.wfb_mem {es : List (String × JVal)} {k : String} {v : JVal}
    (h : JObj.wfb es = true) (hm : (k, v) ∈ es) : v.wfb = true := by
  simp [JObj.wfb] at h
  exact jwfbEntries_mem h.2 hm

/-- Elements of a well-formed array are well-formed. -/
theorem jwfbList_mem {xs : List JVal} {x : JVal}
    (h : jwfbList xs = true) (hm : x ∈ xs) : x.wfb = true := by
  induction xs with
  | nil => simp at hm
  | cons y rest ih =>
    simp [jwfbList] at h
    rcases List.mem_cons.mp hm with h1 | h1
    · rw [h1]; exact h.1
    · exact ih h.2 h1

/-- A well-formed object value has a well-formed entry list. -/
theorem JVal.wfb_obj_iff {es : List (String × JVal)} :
    (JVal.obj es).wfb = true ↔ JObj.wfb es = true := by
  simp [JVal.wfb, JObj.wfb]

/-!
## Mode exclusivity (C4): lemmas

In ordered mode the Array Comparator is a no-op; in unordered mode the
Key/Type/Value comparators coincide with their variants that have no
array-recursion branch at all.
-/

theorem arrayCheck_of_ordered (ctx : WorkingContext)
    (h : ctx.config.array_same_order = true) (key : String)
    (a b : List (String × JVal)) : arrayCheck ctx key a b = [] := by
  simp [arrayCheck, h]

theorem keyCheck_eq_noArr (ctx : WorkingContext)
    (h : ctx.config.array_same_order = false) (key : String)
    (a b : List (String × JVal)) :
    keyCheck ctx key a b = keyCheckNoArr ctx key a b := by
  refine keyCheck.induct ctx
    (fun key a b => keyCheck ctx key a b = keyCheckNoArr ctx key a b)
    (fun key a b bKeys =>
      keyCheckA ctx key a b bKeys = keyCheckANoArr ctx key a b bKeys)
    (fun key a b =>
      findKeyDiffsInValues ctx key a b = findKeyDiffsInValuesNoArr ctx key a b)
    (fun key i xs ys => True)
    ?_ ?_ ?_ ?_ ?_ ?_ ?_ key a b
  · intro key a b h2
    simp [keyCheck, keyCheckNoArr, h2]
  · intro key b bKeys
    simp [keyCheckA, keyCheckANoArr]
  · intro key b bKeys k av rest fk bv hbv ih3 ih2
    simp [keyCheckA, keyCheckANoArr, hbv, ih3, ih2]
  · intro key b bKeys k av rest hbv ih2
    simp [keyCheckA, keyCheckANoArr, hbv, ih2]
  · intro key a b hobj harr
    cases a <;> cases b <;>
      simp_all [findKeyDiffsInValues, findKeyDiffsInValuesNoArr, h]
  · intro _ _ _ _ _ _ _ _
    trivial
  · intro _ _ _ _ _
    trivial

theorem typeCheck_eq_noArr (ctx : WorkingContext)
    (h : ctx.config.array_same_order = false) (key : String)
    (a b : List (String × JVal)) :
    typeCheck ctx key a b = typeCheckNoArr ctx key a b := by
  refine typeCheck.induct ctx
    (fun key a b => typeCheck ctx key a b = typeCheckNoArr ctx key a b)
    (fun key a b =>
      findTypeDiffsInValues ctx key a b = findTypeDiffsInValuesNoArr ctx key a b)
    (fun key i xs ys => True)
    ?_ ?_ ?_ ?_ ?_ key a b
  · intro key b
    simp [typeCheck, typeCheckNoArr]
  · intro key b k av rest ih1 ih2
    match hbv : JObj.get b k with
    | some bv => simp [typeCheck, typeCheckNoArr, hbv, ih2, ih1 bv]
    | none => simp [typeCheck, typeCheckNoArr, hbv, ih2]
  · intro key a b hobj harr
    cases a <;> cases b <;>
      simp_all [findTypeDiffsInValues, findTypeDiffsInValuesNoArr, h]
  · intro _ _ _ _ _ _ _ _
    trivial
  · intro _ _ _ _ _
    trivial

theorem valueCheck_eq_noArr (ctx : WorkingContext)
    (h : ctx.config.array_same_order = false) (key : String)
    (a b : List (String × JVal)) :
    valueCheck ctx key a b = valueCheckNoArr ctx key a b := by
  refine valueCheck.induct ctx
    (fun key a b => valueCheck ctx key a b = valueCheckNoArr ctx key a b)
    (fun key a b =>
      findValueDiffsInValues ctx key a b =
        findValueDiffsInValuesNoArr ctx key a b)
    (fun key i xs ys => True)
    ?_ ?_ ?_ ?_ ?_ ?_ ?_ ?_ ?_ ?_ key a b
  · intro key b
    simp [valueCheck, valueCheckNoArr]
  · intro key b k av rest ih1 ih2
    match hbv : JObj.get b k with
    | some bv => simp [valueCheck, valueCheckNoArr, hbv, ih2, ih1 bv]
    | none => simp [valueCheck, valueCheckNoArr, hbv, ih2]
  · intro key ea eb h1
    simp [findValueDiffsInValues, findValueDiffsInValuesNoArr, h1]
  · intro key xs ys hc _
    rw [h] at hc
    exact absurd hc.1 (by simp)
  · intro key xs ys hc hbeq
    simp [findValueDiffsInValues, findValueDiffsInValuesNoArr, hc, hbeq]
  · intro key xs ys hc hbeq
    rw [not_not] at hbeq
    simp [findValueDiffsInValues, findValueDiffsInValuesNoArr, hc, hbeq]
  · intro key a b hobj harr hbeq
    cases a <;> cases b <;>
      first
        | exact (hobj _ _ rfl rfl).elim
        | exact (harr _ _ rfl rfl).elim
        | simp_all [findValueDiffsInValues, findValueDiffsInValuesNoArr]
  · intro key a b hobj harr hbeq
    rw [not_not] at hbeq
    cases a <;> cases b <;>
      first
        | exact (hobj _ _ rfl rfl).elim
        | exact (harr _ _ rfl rfl).elim
        | simp_all [findValueDiffsInValues, findValueDiffsInValuesNoArr]
  · intro _ _ _ _ _ _ _ _
    trivial
  · intro _ _ _ _ _
    trivial

/-!
## Idempotence (C3): lemmas for the JSON comparators
-/

theorem typeCheck_eq_nil_of (ctx : WorkingContext) (key : String)
    (a b : List (String × JVal))
    (h : ∀ k av bv, (k, av) ∈ a → JObj.get b k = some bv →
      findTypeDiffsInValues ctx (format_key key k) av bv = []) :
    typeCheck ctx key a b = [] := by
  induction a with
  | nil => simp [typeCheck]
  | cons e rest ih =>
    obtain ⟨k, av⟩ := e
    have ih' := ih fun k' av' bv' hm hg => h k' av' bv' (List.mem_cons_of_mem _ hm) hg
    match hbv : JObj.get b k with
    | some bv => simp [typeCheck, hbv, ih', h k av bv (List.mem_cons_self _ _) hbv]
    | none => simp [typeCheck, hbv, ih']

theorem valueCheck_eq_nil_of (ctx : WorkingContext) (key : String)
    (a b : List (String × JVal))
    (h : ∀ k av bv, (k, av) ∈ a → JObj.get b k = some bv →
      findValueDiffsInValues ctx (format_key key k) av bv = []) :
    valueCheck ctx key a b = [] := by
  induction a with
  | nil => simp [valueCheck]
  | cons e rest ih =>
    obtain ⟨k, av⟩ := e
    have ih' := ih fun k' av' bv' hm hg => h k' av' bv' (List.mem_cons_of_mem _ hm) hg
    match hbv : JObj.get b k with
    | some bv => simp [valueCheck, hbv, ih', h k av bv (List.mem_cons_self _ _) hbv]
    | none => simp [valueCheck, hbv, ih']

theorem arrayCheckEntries_eq_nil_of (ctx : WorkingContext) (key : String)
    (a b : List (String × JVal))
    (h : ∀ k av bv, (k, av) ∈ a → JObj.get b k = some bv →
      findArrayDiffsInValues ctx (format_key key k) av bv = []) :
    arrayCheckEntries ctx key a b = [] := by
  induction a with
  | nil => simp [arrayCheckEntries]
  | cons e rest ih =>
    obtain ⟨k, av⟩ := e
    have ih' := ih fun k' av' bv' hm hg => h k' av' bv' (List.mem_cons_of_mem _ hm) hg
    match hbv : JObj.get b k with
    | some bv =>
      simp [arrayCheckEntries, hbv, ih', h k av bv (List.mem_cons_self _ _) hbv]
    | none => simp [arrayCheckEntries, hbv, ih']

theorem keyCheckA_self (ctx : WorkingContext) (key : String)
    (a b : List (String × JVal))
    (h : ∀ e ∈ a, ∃ bv, JObj.get b e.1 = some bv ∧
      findKeyDiffsInValues ctx (format_key key e.1) e.2 bv = []) :
    keyCheckA ctx key a b (a.map fun e => format_key key e.1) = ([], []) := by
  induction a with
  | nil => simp [keyCheckA]
  | cons e rest ih =>
    obtain ⟨k, av⟩ := e
    obtain ⟨bv, hbv, hnil⟩ := h (k, av) (List.mem_cons_self _ _)
    have ih' := ih fun e' hm => h e' (List.mem_cons_of_mem _ hm)
    simp only [List.map_cons] at *
    simp [keyCheckA, hbv, hnil, List.erase_cons_head, ih']

/-- The diagonal run of all four JSON comparators is empty, jointly over
values, object entry lists and array element lists. -/
theorem self_diffs_empty : ∀ n : Nat,
    (∀ (ctx : WorkingContext) (key : String) (v : JVal), sizeOf v ≤ n →
      v.wfb = true →
      findKeyDiffsInValues ctx key v v = [] ∧
      findTypeDiffsInValues ctx key v v = [] ∧
      findValueDiffsInValues ctx key v v = [] ∧
      findArrayDiffsInValues ctx key v v = []) ∧
    (∀ (ctx : WorkingContext) (key : String)
      (es : List (String × JVal)), sizeOf es ≤ n → JObj.wfb es = true →
      keyCheck ctx key es es = [] ∧ typeCheck ctx key es es = [] ∧
      valueCheck ctx key es es = [] ∧ arrayCheckEntries ctx key es es = []) ∧
    (∀ (ctx : WorkingContext) (key : String) (i : Nat)
      (xs : List JVal), sizeOf xs ≤ n → jwfbList xs = true →
      findKeyDiffsInArrays ctx key i xs xs = [] ∧
      findTypeDiffsInArrays ctx key i xs xs = [] ∧
      findValueDiffsInArrays ctx key i xs xs = []) := by
  intro n
  induction n using Nat.strong_induction_on with
  | _ n ih =>
    refine ⟨?_, ?_, ?_⟩
    · intro ctx key v hv hwf
      cases v with
      | null => simp [findKeyDiffsInValues, findTypeDiffsInValues,
          findValueDiffsInValues, findArrayDiffsInValues, JVal.beq]
      | bool b => simp [findKeyDiffsInValues, findTypeDiffsInValues,
          findValueDiffsInValues, findArrayDiffsInValues, JVal.beq]
      | num m => simp [findKeyDiffsInValues, findTypeDiffsInValues,
          findValueDiffsInValues, findArrayDiffsInValues, JVal.beq]
      | str s => simp [findKeyDiffsInValues, findTypeDiffsInValues,
          findValueDiffsInValues, findArrayDiffsInValues, JVal.beq]
      | arr xs =>
        have hx : sizeOf xs < n := by simp at hv; omega
        have hwx : jwfbList xs = true := by simpa [JVal.wfb] using hwf
        have harr := (ih (sizeOf xs) hx).2.2 ctx key 0 xs le_rfl hwx
        have hfill : fillDiffVectorsEmit key xs xs = [] := by
          have hf : xs.filter (fun x => !(jContains xs x)) = [] :=
            List.filter_eq_nil_iff.mpr fun x hx => by
              simp [jContains_of_mem hx]
          simp [fillDiffVectorsEmit, hf]
        refine ⟨?_, ?_, ?_, ?_⟩
        · simp only [findKeyDiffsInValues]
          split <;> simp_all
        · simp only [findTypeDiffsInValues]
          simp only [List.append_nil, List.nil_append]
          split <;> simp_all
        · simp only [findValueDiffsInValues]
          split
          · exact harr.2.2
          · simp [JVal.beq_refl]
        · simp [findArrayDiffsInValues, hfill]
      | obj es =>
        have hx : sizeOf es < n := by simp at hv; omega
        have hwx : JObj.wfb es = true := JVal.wfb_obj_iff.mp hwf
        have hobj := (ih (sizeOf es) hx).2.1 ctx key es le_rfl hwx
        refine ⟨?_, ?_, ?_, ?_⟩
        · simp [findKeyDiffsInValues, hobj.1]
        · simp [findTypeDiffsInValues, hobj.2.1]
        · simp [findValueDiffsInValues, hobj.2.2.1]
        · simp only [findArrayDiffsInValues, arrayCheck]
          split <;> simp [hobj.2.2.2]
    · intro ctx key es hes hwf
      have hnd := JObj.nodup_of_wfb hwf
      have hval : ∀ k av bv, (k, av) ∈ es → JObj.get es k = some bv →
          findKeyDiffsInValues ctx (format_key key k) av bv = [] ∧
          findTypeDiffsInValues ctx (format_key key k) av bv = [] ∧
          findValueDiffsInValues ctx (format_key key k) av bv = [] ∧
          findArrayDiffsInValues ctx (format_key key k) av bv = [] := by
        intro k av bv hm hg
        have hbv : av = bv := by
          have hga := JObj.get_eq_some_of_mem hnd hm
          rw [hga] at hg
          exact Option.some_inj.mp hg
        subst hbv
        have hsz : sizeOf av < n := by
          have h1 := List.sizeOf_lt_of_mem hm
          have : sizeOf av < sizeOf (k, av) := by simp
          omega
        exact (ih (sizeOf av) hsz).1 ctx (format_key key k) av le_rfl
          (jwfbEntries_mem (by simp [JObj.wfb] at hwf; exact hwf.2) hm)
      refine ⟨?_, ?_, ?_, ?_⟩
      · have hA := keyCheckA_self ctx key es es fun e hm =>
          ⟨e.2, JObj.get_eq_some_of_mem hnd (by cases e; exact hm),
            (hval e.1 e.2 e.2 (by cases e; exact hm)
              (JObj.get_eq_some_of_mem hnd (by cases e; exact hm))).1⟩
        simp [keyCheck, hA]
      · exact typeCheck_eq_nil_of ctx key es es fun k av bv hm hg =>
          (hval k av bv hm hg).2.1
      · exact valueCheck_eq_nil_of ctx key es es fun k av bv hm hg =>
          (hval k av bv hm hg).2.2.1
      · exact arrayCheckEntries_eq_nil_of ctx key es es fun k av bv hm hg =>
          (hval k av bv hm hg).2.2.2
    · intro ctx key i xs hxs hwf
      cases xs with
      | nil => simp [findKeyDiffsInArrays, findTypeDiffsInArrays,
          findValueDiffsInArrays]
      | cons x rest =>
        have hx : sizeOf x < n := by simp at hxs; omega
        have hr : sizeOf rest < n := by simp at hxs; omega
        simp only [jwfbList, Bool.and_eq_true] at hwf
        have h1 := (ih (sizeOf x) hx).1 ctx (indexKey key i) x le_rfl hwf.1
        have h2 := (ih (sizeOf rest) hr).2.2 ctx key (i + 1) rest le_rfl hwf.2
        refine ⟨?_, ?_, ?_⟩
        · simp [findKeyDiffsInArrays, h1.1, h2.1]
        · simp [findTypeDiffsInArrays, h1.2.1, h2.2.1]
        · simp [findValueDiffsInArrays, h1.2.2.1, h2.2.2]

/-!
## A closed form for the Key Comparator (C8, reused for C5)

`check_a`'s interleaved walk emits, per key of `a` in order, either the
recursive diffs of the shared pair or one `A has / B misses` record; the
`b_keys` bookkeeping leaves exactly the keys of `b` absent from `a`, in
`b`'s order.
-/

theorem bne_comm_str (u v : String) : (u != v) = (v != u) := by
  by_cases h : u = v
  · simp [h]
  · have h1 : (u != v) = true := by simp [bne_iff_ne, h]
    have h2 : (v != u) = true := by simp [bne_iff_ne, Ne.symm h]
    rw [h1, h2]

theorem string_append_cancel {s t1 t2 : String} (h : s ++ t1 = s ++ t2) :
    t1 = t2 := by
  apply String.ext
  have hd := congrArg String.data h
  rw [String.data_append, String.data_append] at hd
  exact List.append_cancel_left hd

/-- Formatted keys with a common path are equal only for equal keys. -/
theorem format_key_inj (key : String) {k1 k2 : String}
    (h : format_key key k1 = format_key key k2) : k1 = k2 := by
  by_cases he : key.isEmpty
  · simpa [format_key, he] using h
  · simp only [format_key, he, if_false] at h
    exact string_append_cancel h

/-- The diff component of `check_a`, in closed form. -/
theorem keyCheckA_fst (ctx : WorkingContext) (key : String)
    (b : List (String × JVal)) :
    ∀ (a : List (String × JVal)) (bKeys : List String),
    (keyCheckA ctx key a b bKeys).1 = a.flatMap fun e =>
      match JObj.get b e.1 with
      | some bv => findKeyDiffsInValues ctx (format_key key e.1) e.2 bv
      | none => [KeyDiff.mk (format_key key e.1) ctx.file_a.name
          ctx.file_b.name] := by
  intro a
  induction a with
  | nil => intro bKeys; simp [keyCheckA]
  | cons e rest ih =>
    intro bKeys
    obtain ⟨k, av⟩ := e
    match hbv : JObj.get b k with
    | some bv => simp [keyCheckA, hbv, ih]
    | none => simp [keyCheckA, hbv, ih]

/-- The pending-`b_keys` component of `check_a`, as a fold of erasures. -/
theorem keyCheckA_snd (ctx : WorkingContext) (key : String)
    (b : List (String × JVal)) :
    ∀ (a : List (String × JVal)) (bKeys : List String),
    (keyCheckA ctx key a b bKeys).2 = a.foldl
      (fun bk e => if (JObj.get b e.1).isSome then
        bk.erase (format_key key e.1) else bk) bKeys := by
  intro a
  induction a with
  | nil => intro bKeys; simp [keyCheckA]
  | cons e rest ih =>
    intro bKeys
    obtain ⟨k, av⟩ := e
    match hbv : JObj.get b k with
    | some bv => simp [keyCheckA, hbv, ih]
    | none => simp [keyCheckA, hbv, ih]

/-- Erasing the formatted shared keys from a duplicate-free list is a
filter by non-sharedness. -/
theorem foldl_erase_eq_filter (_ctx : WorkingContext) (key : String)
    (b : List (String × JVal)) :
    ∀ (a : List (String × JVal)) (l : List String), l.Nodup →
    a.foldl (fun bk e => if (JObj.get b e.1).isSome then
      bk.erase (format_key key e.1) else bk) l =
    l.filter fun x => a.all fun e =>
      !(JObj.get b e.1).isSome || (format_key key e.1 != x) := by
  intro a
  induction a with
  | nil => intro l _; simp
  | cons e rest ih =>
    intro l hnd
    simp only [List.foldl_cons, List.all_cons]
    by_cases hc : (JObj.get b e.1).isSome
    · rw [hc]
      simp only [if_true]
      rw [List.Nodup.erase_eq_filter hnd (format_key key e.1)]
      rw [ih _ (List.Nodup.filter _ hnd)]
      rw [List.filter_filter]
      refine List.filter_congr fun x _ => ?_
      simp only [hc, Bool.true_eq, Bool.not_true, Bool.false_or]
      rw [Bool.and_comm, bne_comm_str x (format_key key e.1)]
    · simp only [Bool.not_eq_true] at hc
      rw [hc]
      simp only [Bool.false_eq_true, if_false, Bool.not_false, Bool.true_or,
        Bool.true_and]
      exact ih l hnd

/-- The Key Comparator in closed form: per key of `a`, recursive diffs of
the shared pair or one `A has / B misses` record; then one
`B has / A misses` record per key of `b` absent from `a`. -/
theorem keyCheck_closed (ctx : WorkingContext) (key : String)
    (a b : List (String × JVal)) (hndb : (b.map Prod.fst).Nodup) :
    keyCheck ctx key a b =
      (a.flatMap fun e =>
        match JObj.get b e.1 with
        | some bv => findKeyDiffsInValues ctx (format_key key e.1) e.2 bv
        | none => [KeyDiff.mk (format_key key e.1) ctx.file_a.name
            ctx.file_b.name]) ++
      ((b.filter fun e => (JObj.get a e.1).isNone).map fun e =>
        KeyDiff.mk (format_key key e.1) ctx.file_b.name ctx.file_a.name) := by
  have hndl : (b.map fun e => format_key key e.1).Nodup := by
    have : (b.map fun e => format_key key e.1) =
        (b.map Prod.fst).map (format_key key) := by
      simp [List.map_map, Function.comp]
    rw [this]
    exact hndb.map fun x y h => format_key_inj key h
  have hfm : (List.filter
      (fun x => a.all fun e =>
        !(JObj.get b e.1).isSome || (format_key key e.1 != x))
      (b.map fun e => format_key key e.1)) =
      (b.filter fun e => (JObj.get a e.1).isNone).map
        fun e => format_key key e.1 := by
    have hcomp := List.filter_map
      (fun e : String × JVal => format_key key e.1)
      (p := fun x => a.all fun e =>
        !(JObj.get b e.1).isSome || (format_key key e.1 != x)) b
    rw [hcomp]
    congr 1
    refine List.filter_congr fun eb hmb => ?_
    simp only [Function.comp_apply]
    have hsb : (JObj.get b eb.1).isSome = true :=
      JObj.get_isSome_iff.mpr (List.mem_map.mpr ⟨eb, hmb, rfl⟩)
    cases hga : JObj.get a eb.1 with
    | none =>
      simp only [Option.isNone_none]
      rw [List.all_eq_true]
      intro e hme
      have hsa : (JObj.get a e.1).isSome = true :=
        JObj.get_isSome_iff.mpr (List.mem_map.mpr ⟨e, hme, rfl⟩)
      by_cases hs : (JObj.get b e.1).isSome = true
      · have hne : (format_key key e.1 != format_key key eb.1) = true := by
          rw [bne_iff_ne]
          intro hf
          have heq : e.1 = eb.1 := format_key_inj key hf
          rw [heq, hga] at hsa
          simp at hsa
        simp [hne]
      · have hs' : (JObj.get b e.1).isSome = false := by simpa using hs
        simp [hs']
    | some av =>
      have hma : (eb.1, av) ∈ a := JObj.mem_of_get_eq_some hga
      simp only [Option.isNone_some]
      refine Bool.eq_false_iff.mpr fun hall => ?_
      rw [List.all_eq_true] at hall
      have hw := hall _ hma
      simp [hsb] at hw
  rw [keyCheck]
  rw [keyCheckA_fst ctx key b a (b.map fun e => format_key key e.1)]
  rw [keyCheckA_snd ctx key b a (b.map fun e => format_key key e.1)]
  rw [foldl_erase_eq_filter ctx key b a _ hndl]
  rw [hfm]
  simp [List.map_map, Function.comp]

/-- Membership in the Key Comparator's output, characterized per source
pair (under unique keys on the `b` side). -/
theorem mem_keyCheck_iff (ctx : WorkingContext) (key : String)
    (a b : List (String × JVal)) (hndb : (b.map Prod.fst).Nodup)
    (d : KeyDiff) :
    d ∈ keyCheck ctx key a b ↔
      (∃ e ∈ a, ∃ bv, JObj.get b e.1 = some bv ∧
        d ∈ findKeyDiffsInValues ctx (format_key key e.1) e.2 bv) ∨
      (∃ e ∈ a, JObj.get b e.1 = none ∧
        d = KeyDiff.mk (format_key key e.1) ctx.file_a.name ctx.file_b.name) ∨
      (∃ e ∈ b, JObj.get a e.1 = none ∧
        d = KeyDiff.mk (format_key key e.1) ctx.file_b.name
          ctx.file_a.name) := by
  rw [keyCheck_closed ctx key a b hndb]
  simp only [List.mem_append, List.mem_flatMap, List.mem_map, List.mem_filter]
  constructor
  · rintro (⟨e, hme, hd⟩ | ⟨e, ⟨hme, hnone⟩, hd⟩)
    · cases hg : JObj.get b e.1 with
      | some bv =>
        rw [hg] at hd
        exact Or.inl ⟨e, hme, bv, hg, hd⟩
      | none =>
        rw [hg] at hd
        simp at hd
        exact Or.inr (Or.inl ⟨e, hme, hg, hd⟩)
    · refine Or.inr (Or.inr ⟨e, hme, ?_, hd.symm⟩)
      cases hg : JObj.get a e.1 with
      | some v => rw [hg] at hnone; simp at hnone
      | none => rfl
  · rintro (⟨e, hme, bv, hg, hd⟩ | ⟨e, hme, hg, hd⟩ | ⟨e, hme, hg, hd⟩)
    · exact Or.inl ⟨e, hme, by rw [hg]; exact hd⟩
    · exact Or.inl ⟨e, hme, by rw [hg]; simp [hd]⟩
    · exact Or.inr ⟨e, ⟨hme, by rw [hg]; rfl⟩, hd.symm⟩

/-!
## Symmetry of key diffs (C5): the joint induction
-/

theorem keyCheck_symm_all : ∀ n : Nat,
    (∀ (ctx : WorkingContext) (key : String) (a b : JVal),
      sizeOf a + sizeOf b ≤ n → a.wfb = true → b.wfb = true →
      ∀ d, d ∈ findKeyDiffsInValues ctx key a b ↔
        d ∈ findKeyDiffsInValues (swapContext ctx) key b a) ∧
    (∀ (ctx : WorkingContext) (key : String)
      (ea eb : List (String × JVal)),
      sizeOf ea + sizeOf eb ≤ n → JObj.wfb ea = true → JObj.wfb eb = true →
      ∀ d, d ∈ keyCheck ctx key ea eb ↔
        d ∈ keyCheck (swapContext ctx) key eb ea) ∧
    (∀ (ctx : WorkingContext) (key : String) (i : Nat)
      (xs ys : List JVal),
      sizeOf xs + sizeOf ys ≤ n → jwfbList xs = true → jwfbList ys = true →
      ∀ d, d ∈ findKeyDiffsInArrays ctx key i xs ys ↔
        d ∈ findKeyDiffsInArrays (swapContext ctx) key i ys xs) := by
  intro n
  induction n using Nat.strong_induction_on with
  | _ n ih =>
    refine ⟨?_, ?_, ?_⟩
    · intro ctx key a b hsz hwa hwb d
      cases a with
      | obj ea =>
        cases b with
        | obj eb =>
          have hs : sizeOf ea + sizeOf eb < n := by simp at hsz; omega
          have := (ih _ hs).2.1 ctx key ea eb le_rfl
            (JVal.wfb_obj_iff.mp hwa) (JVal.wfb_obj_iff.mp hwb) d
          simpa [findKeyDiffsInValues] using this
        | null => simp [findKeyDiffsInValues]
        | bool v => simp [findKeyDiffsInValues]
        | num v => simp [findKeyDiffsInValues]
        | str v => simp [findKeyDiffsInValues]
        | arr ys => simp [findKeyDiffsInValues]
      | arr xs =>
        cases b with
        | arr ys =>
          have hs : sizeOf xs + sizeOf ys < n := by simp at hsz; omega
          have harr := (ih _ hs).2.2 ctx key 0 xs ys le_rfl
            (by simpa [JVal.wfb] using hwa) (by simpa [JVal.wfb] using hwb) d
          by_cases hc : ctx.config.array_same_order = true ∧
              xs.length = ys.length
          · have hc' : (swapContext ctx).config.array_same_order = true ∧
                ys.length = xs.length := ⟨hc.1, hc.2.symm⟩
            simp only [findKeyDiffsInValues, List.nil_append]
            rw [if_pos hc, if_pos hc']
            exact harr
          · have hc' : ¬((swapContext ctx).config.array_same_order = true ∧
                ys.length = xs.length) := by
              intro hcc
              exact hc ⟨hcc.1, hcc.2.symm⟩
            simp only [findKeyDiffsInValues, List.nil_append]
            rw [if_neg hc, if_neg hc']
        | null => simp [findKeyDiffsInValues]
        | bool v => simp [findKeyDiffsInValues]
        | num v => simp [findKeyDiffsInValues]
        | str v => simp [findKeyDiffsInValues]
        | obj eb => simp [findKeyDiffsInValues]
      | null => cases b <;> simp [findKeyDiffsInValues]
      | bool v => cases b <;> simp [findKeyDiffsInValues]
      | num v => cases b <;> simp [findKeyDiffsInValues]
      | str v => cases b <;> simp [findKeyDiffsInValues]
    · intro ctx key ea eb hsz hwa hwb d
      have hnda := JObj.nodup_of_wfb hwa
      have hndb := JObj.nodup_of_wfb hwb
      rw [mem_keyCheck_iff ctx key ea eb hndb d,
        mem_keyCheck_iff (swapContext ctx) key eb ea hnda d]
      have hval : ∀ (k : String) (av bv : JVal), (k, av) ∈ ea →
          (k, bv) ∈ eb →
          (d ∈ findKeyDiffsInValues ctx (format_key key k) av bv ↔
           d ∈ findKeyDiffsInValues (swapContext ctx) (format_key key k)
             bv av) := by
        intro k av bv hma hmb
        have h1 : sizeOf av < sizeOf ea := by
          have h1 := List.sizeOf_lt_of_mem hma
          have h2 : sizeOf av < sizeOf (k, av) := by simp
          omega
        have h2 : sizeOf bv < sizeOf eb := by
          have h1 := List.sizeOf_lt_of_mem hmb
          have h2 : sizeOf bv < sizeOf (k, bv) := by simp
          omega
        have hs : sizeOf av + sizeOf bv < n := by omega
        exact (ih _ hs).1 ctx (format_key key k) av bv le_rfl
          (JObj.wfb_mem hwa hma) (JObj.wfb_mem hwb hmb) d
      constructor
      · rintro (⟨e, hme, bv, hg, hd⟩ | h | h)
        · have hmb : (e.1, bv) ∈ eb := JObj.mem_of_get_eq_some hg
          have hga : JObj.get ea e.1 = some e.2 :=
            JObj.get_eq_some_of_mem hnda (by cases e; exact hme)
          refine Or.inl ⟨(e.1, bv), hmb, e.2, hga, ?_⟩
          exact (hval e.1 e.2 bv (by cases e; exact hme) hmb).mp hd
        · exact Or.inr (Or.inr h)
        · exact Or.inr (Or.inl h)
      · rintro (⟨e, hme, av, hg, hd⟩ | h | h)
        · have hma : (e.1, av) ∈ ea := JObj.mem_of_get_eq_some hg
          have hgb : JObj.get eb e.1 = some e.2 :=
            JObj.get_eq_some_of_mem hndb (by cases e; exact hme)
          refine Or.inl ⟨(e.1, av), hma, e.2, hgb, ?_⟩
          exact (hval e.1 av e.2 hma (by cases e; exact hme)).mpr hd
        · exact Or.inr (Or.inr h)
        · exact Or.inr (Or.inl h)
    · intro ctx key i xs ys hsz hwx hwy d
      cases xs with
      | nil => cases ys <;> simp [findKeyDiffsInArrays]
      | cons x rest =>
        cases ys with
        | nil => simp [findKeyDiffsInArrays]
        | cons y rest' =>
          have hsx : sizeOf x + sizeOf y < n := by simp at hsz; omega
          have hsr : sizeOf rest + sizeOf rest' < n := by simp at hsz; omega
          simp only [jwfbList, Bool.and_eq_true] at hwx hwy
          have h1 := (ih _ hsx).1 ctx (indexKey key i) x y le_rfl
            hwx.1 hwy.1 d
          have h2 := (ih _ hsr).2.2 ctx key (i + 1) rest rest' le_rfl
            hwx.2 hwy.2 d
          simp only [findKeyDiffsInArrays, List.mem_append]
          rw [h1, h2]

/-!
## Multiset conservation (C2): lemmas
-/

theorem countDesc_append (desc : ArrayDiffDesc) (v : String)
    (l1 l2 : List ArrayDiff) :
    countDesc desc v (l1 ++ l2) = countDesc desc v l1 + countDesc desc v l2 := by
  simp [countDesc, List.filter_append]

theorem countDesc_nil (desc : ArrayDiffDesc) (v : String) :
    countDesc desc v [] = 0 := by
  simp [countDesc]

/-- Counting one descriptor in a homogeneous emission block. -/
theorem countDesc_emit (key : String) (vs : List JVal)
    (d1 d2 : ArrayDiffDesc) (v : String) :
    countDesc d1 v (vs.map fun w => ArrayDiff.mk key d2 w.renderLeaf) =
      if d1 = d2 then (vs.filter fun w => decide (w.renderLeaf = v)).length
      else 0 := by
  induction vs with
  | nil => simp [countDesc]
  | cons w rest ih =>
    by_cases hd : d1 = d2
    · subst hd
      by_cases hv : w.renderLeaf = v
      · simp_all [countDesc, List.filter_cons, hv]
      · simp_all [countDesc, List.filter_cons, hv]
    · simp_all [countDesc, List.filter_cons, hd, Ne.symm hd]

/-- `fill_diff_vectors` emits conserved pairs: the `AHas` block and the
`BMisses` block come from the same filtered list, and likewise
`BHas`/`AMisses`. -/
theorem fillDiffVectorsEmit_conserv (key : String) (xs ys : List JVal)
    (v : String) :
    countDesc .AHas v (fillDiffVectorsEmit key xs ys) =
      countDesc .BMisses v (fillDiffVectorsEmit key xs ys) ∧
    countDesc .BHas v (fillDiffVectorsEmit key xs ys) =
      countDesc .AMisses v (fillDiffVectorsEmit key xs ys) := by
  simp only [fillDiffVectorsEmit, countDesc_append, countDesc_emit]
  simp

/-- Conservation for the JSON Array Comparator, jointly over values and
entry lists. -/
theorem json_conserv_all : ∀ n : Nat,
    (∀ (ctx : WorkingContext) (key : String) (a b : JVal), sizeOf a ≤ n →
      ∀ v, countDesc .AHas v (findArrayDiffsInValues ctx key a b) =
        countDesc .BMisses v (findArrayDiffsInValues ctx key a b) ∧
      countDesc .BHas v (findArrayDiffsInValues ctx key a b) =
        countDesc .AMisses v (findArrayDiffsInValues ctx key a b)) ∧
    (∀ (ctx : WorkingContext) (key : String)
      (a b : List (String × JVal)), sizeOf a ≤ n →
      ∀ v, countDesc .AHas v (arrayCheckEntries ctx key a b) =
        countDesc .BMisses v (arrayCheckEntries ctx key a b) ∧
      countDesc .BHas v (arrayCheckEntries ctx key a b) =
        countDesc .AMisses v (arrayCheckEntries ctx key a b)) := by
  intro n
  induction n using Nat.strong_induction_on with
  | _ n ih =>
    have hgate : ∀ (ctx : WorkingContext) (key : String)
        (ea eb : List (String × JVal)), sizeOf ea < n →
        ∀ v, countDesc .AHas v (arrayCheck ctx key ea eb) =
          countDesc .BMisses v (arrayCheck ctx key ea eb) ∧
        countDesc .BHas v (arrayCheck ctx key ea eb) =
          countDesc .AMisses v (arrayCheck ctx key ea eb) := by
      intro ctx key ea eb hsz v
      rw [arrayCheck]
      split
      · simp [countDesc_nil]
      · exact (ih _ hsz).2 ctx key ea eb le_rfl v
    refine ⟨?_, ?_⟩
    · intro ctx key a b hsz v
      cases a with
      | obj ea =>
        cases b with
        | obj eb =>
          have hx : sizeOf ea < n := by simp at hsz; omega
          have h1 := hgate ctx key ea eb hx v
          simp only [findArrayDiffsInValues, countDesc_append, countDesc_nil]
          omega
        | null => simp [findArrayDiffsInValues, countDesc_nil]
        | bool x => simp [findArrayDiffsInValues, countDesc_nil]
        | num x => simp [findArrayDiffsInValues, countDesc_nil]
        | str x => simp [findArrayDiffsInValues, countDesc_nil]
        | arr x => simp [findArrayDiffsInValues, countDesc_nil]
      | arr xs =>
        cases b with
        | arr ys =>
          have h2 := fillDiffVectorsEmit_conserv key xs ys v
          simp only [findArrayDiffsInValues, countDesc_append, countDesc_nil]
          omega
        | null => simp [findArrayDiffsInValues, countDesc_nil]
        | bool x => simp [findArrayDiffsInValues, countDesc_nil]
        | num x => simp [findArrayDiffsInValues, countDesc_nil]
        | str x => simp [findArrayDiffsInValues, countDesc_nil]
        | obj x => simp [findArrayDiffsInValues, countDesc_nil]
      | null => cases b <;> simp [findArrayDiffsInValues, countDesc_nil]
      | bool x => cases b <;> simp [findArrayDiffsInValues, countDesc_nil]
      | num x => cases b <;> simp [findArrayDiffsInValues, countDesc_nil]
      | str x => cases b <;> simp [findArrayDiffsInValues, countDesc_nil]
    · intro ctx key a b hsz v
      cases a with
      | nil => simp [arrayCheckEntries, countDesc_nil]
      | cons e rest =>
        obtain ⟨k, av⟩ := e
        have hr : sizeOf rest < n := by simp at hsz; omega
        have hrest := (ih (sizeOf rest) hr).2 ctx key rest b le_rfl v
        match hbv : JObj.get b k with
        | some bv =>
          have hav : sizeOf av < n := by simp at hsz; omega
          have hval := (ih (sizeOf av) hav).1 ctx (format_key key k) av bv
            le_rfl v
          simp only [arrayCheckEntries, hbv, countDesc_append]
          omega
        | none =>
          simp only [arrayCheckEntries, hbv, countDesc_append, countDesc_nil]
          omega

theorem countDesc_cons (d : ArrayDiff) (rest : List ArrayDiff)
    (desc : ArrayDiffDesc) (v : String) :
    countDesc desc v (d :: rest) =
      (if d.descriptor = desc ∧ d.value = v then 1 else 0) +
        countDesc desc v rest := by
  simp only [countDesc, List.filter_cons]
  by_cases hc : d.descriptor = desc ∧ d.value = v
  · simp [hc]
    omega
  · simp [hc]

/-- Counting descriptors in a successful YAML emission block. -/
theorem yemit_count (key : String) (desc : ArrayDiffDesc) :
    ∀ (vs : List YVal) (l : List ArrayDiff), yemit key desc vs = some l →
    ∀ (d2 : ArrayDiffDesc) (v : String), countDesc d2 v l =
      if d2 = desc then
        (vs.filter fun w => decide (w.asStr = some v)).length
      else 0 := by
  intro vs
  induction vs with
  | nil =>
    intro l h d2 v
    simp [yemit] at h
    subst h
    simp [countDesc_nil]
  | cons w rest ih =>
    intro l h d2 v
    cases hs : w.asStr with
    | none => simp [yemit, hs] at h
    | some s =>
      cases hr : yemit key desc rest with
      | none => simp [yemit, hs, hr] at h
      | some r =>
        simp only [yemit, hs, hr, Option.some_inj] at h
        have hrc := ih r hr d2 v
        subst h
        rw [countDesc_cons, hrc]
        by_cases hd : d2 = desc
        · subst hd
          simp only [if_pos rfl, List.filter_cons]
          by_cases hv : s = v
          · have hw : (decide (w.asStr = some v)) = true := by
              simp [hs, hv]
            simp [hw, hv]
            omega
          · have hw : (decide (w.asStr = some v)) = false := by
              simp [hs, hv]
            simp [hw, hv]
        · have hne : ¬((ArrayDiff.mk key desc s).descriptor = d2 ∧
              (ArrayDiff.mk key desc s).value = v) := by
            intro hc
            exact hd hc.1.symm
          simp [hne, hd]

/-- Conservation for the YAML Array Comparator, jointly over values and
entry lists. -/
theorem yaml_conserv_all : ∀ n : Nat,
    (∀ (ctx : WorkingContext) (key : String) (a b : YVal)
      (ds : List ArrayDiff), sizeOf a ≤ n →
      yfindArrayDiffsInValues ctx key a b = some ds →
      ∀ v, countDesc .AHas v ds = countDesc .BMisses v ds ∧
        countDesc .BHas v ds = countDesc .AMisses v ds) ∧
    (∀ (ctx : WorkingContext) (key : String)
      (a b : List (YVal × YVal)) (ds : List ArrayDiff), sizeOf a ≤ n →
      yarrayCheckEntries ctx key a b = some ds →
      ∀ v, countDesc .AHas v ds = countDesc .BMisses v ds ∧
        countDesc .BHas v ds = countDesc .AMisses v ds) := by
  intro n
  induction n using Nat.strong_induction_on with
  | _ n ih =>
    have hgate : ∀ (ctx : WorkingContext) (key : String)
        (ea eb : List (YVal × YVal)) (ds : List ArrayDiff), sizeOf ea < n →
        yarrayCheck ctx key ea eb = some ds →
        ∀ v, countDesc .AHas v ds = countDesc .BMisses v ds ∧
          countDesc .BHas v ds = countDesc .AMisses v ds := by
      intro ctx key ea eb ds hsz h v
      rw [yarrayCheck] at h
      split at h
      · simp at h
        subst h
        simp [countDesc_nil]
      · exact (ih _ hsz).2 ctx key ea eb ds le_rfl h v
    refine ⟨?_, ?_⟩
    · intro ctx key a b ds hsz h v
      cases a with
      | map ea =>
        cases b with
        | map eb =>
          cases h1 : yarrayCheck ctx key ea eb with
          | none => simp [yfindArrayDiffsInValues, h1] at h
          | some d1 =>
            simp only [yfindArrayDiffsInValues, h1, Option.some_inj] at h
            have hx : sizeOf ea < n := by simp at hsz; omega
            have hc := hgate ctx key ea eb d1 hx h1 v
            subst h
            simp only [countDesc_append, countDesc_nil]
            omega
        | null => simp [yfindArrayDiffsInValues] at h; subst h; simp [countDesc_nil]
        | bool x => simp [yfindArrayDiffsInValues] at h; subst h; simp [countDesc_nil]
        | num x => simp [yfindArrayDiffsInValues] at h; subst h; simp [countDesc_nil]
        | str x => simp [yfindArrayDiffsInValues] at h; subst h; simp [countDesc_nil]
        | seq x => simp [yfindArrayDiffsInValues] at h; subst h; simp [countDesc_nil]
        | tagged t x =>
          simp [yfindArrayDiffsInValues] at h; subst h; simp [countDesc_nil]
      | seq xs =>
        cases b with
        | seq ys =>
          cases he1 : yemit key .AHas (ycountOccurrences xs ys).1 with
          | none => simp [yfindArrayDiffsInValues, he1] at h
          | some e1 =>
          cases he2 : yemit key .AMisses (ycountOccurrences xs ys).2.1 with
          | none => simp [yfindArrayDiffsInValues, he1, he2] at h
          | some e2 =>
          cases he3 : yemit key .BHas (ycountOccurrences xs ys).2.2.1 with
          | none => simp [yfindArrayDiffsInValues, he1, he2, he3] at h
          | some e3 =>
          cases he4 : yemit key .BMisses (ycountOccurrences xs ys).2.2.2 with
          | none => simp [yfindArrayDiffsInValues, he1, he2, he3, he4] at h
          | some e4 =>
            simp only [yfindArrayDiffsInValues, he1, he2, he3, he4,
              Option.some_inj] at h
            have hc1 := yemit_count key .AHas _ e1 he1
            have hc2 := yemit_count key .AMisses _ e2 he2
            have hc3 := yemit_count key .BHas _ e3 he3
            have hc4 := yemit_count key .BMisses _ e4 he4
            subst h
            simp only [countDesc_append, countDesc_nil]
            constructor
            · rw [hc1 .AHas v, hc2 .AHas v, hc3 .AHas v, hc4 .AHas v,
                hc1 .BMisses v, hc2 .BMisses v, hc3 .BMisses v,
                hc4 .BMisses v]
              simp [ycountOccurrences]
            · rw [hc1 .BHas v, hc2 .BHas v, hc3 .BHas v, hc4 .BHas v,
                hc1 .AMisses v, hc2 .AMisses v, hc3 .AMisses v,
                hc4 .AMisses v]
              simp [ycountOccurrences]
        | null => simp [yfindArrayDiffsInValues] at h; subst h; simp [countDesc_nil]
        | bool x => simp [yfindArrayDiffsInValues] at h; subst h; simp [countDesc_nil]
        | num x => simp [yfindArrayDiffsInValues] at h; subst h; simp [countDesc_nil]
        | str x => simp [yfindArrayDiffsInValues] at h; subst h; simp [countDesc_nil]
        | map x => simp [yfindArrayDiffsInValues] at h; subst h; simp [countDesc_nil]
        | tagged t x =>
          simp [yfindArrayDiffsInValues] at h; subst h; simp [countDesc_nil]
      | null =>
        cases b <;> simp [yfindArrayDiffsInValues] at h <;>
          simp_all [countDesc_nil]
      | bool x =>
        cases b <;> simp [yfindArrayDiffsInValues] at h <;>
          simp_all [countDesc_nil]
      | num x =>
        cases b <;> simp [yfindArrayDiffsInValues] at h <;>
          simp_all [countDesc_nil]
      | str x =>
        cases b <;> simp [yfindArrayDiffsInValues] at h <;>
          simp_all [countDesc_nil]
      | tagged t x =>
        cases b <;> simp [yfindArrayDiffsInValues] at h <;>
          simp_all [countDesc_nil]
    · intro ctx key a b ds hsz h v
      cases a with
      | nil =>
        simp [yarrayCheckEntries] at h
        subst h
        simp [countDesc_nil]
      | cons e rest =>
        obtain ⟨k, av⟩ := e
        have hr : sizeOf rest < n := by simp at hsz; omega
        match hbv : YMap.get b k with
        | some bv =>
          cases hks : k.asStr with
          | none => simp [yarrayCheckEntries, hbv, hks] at h
          | some ks =>
          cases hd : yfindArrayDiffsInValues ctx (format_key key ks) av bv with
          | none => simp [yarrayCheckEntries, hbv, hks, hd] at h
          | some d =>
          cases hrr : yarrayCheckEntries ctx key rest b with
          | none => simp [yarrayCheckEntries, hbv, hks, hd, hrr] at h
          | some r =>
            simp only [yarrayCheckEntries, hbv, hks, hd, hrr,
              Option.some_inj] at h
            have hav : sizeOf av < n := by simp at hsz; omega
            have hc1 := (ih (sizeOf av) hav).1 ctx (format_key key ks) av bv
              d le_rfl hd v
            have hc2 := (ih (sizeOf rest) hr).2 ctx key rest b r le_rfl hrr v
            subst h
            simp only [countDesc_append]
            omega
        | none =>
          simp only [yarrayCheckEntries, hbv] at h
          exact (ih (sizeOf rest) hr).2 ctx key rest b ds le_rfl h v

/-!
## Ordered-mode array recursion of the Key Comparator (C7): lemmas
-/

/-- In ordered mode, equal-length array pairs are recursed element by
element. -/
theorem findKeyDiffsInValues_arr_of_ordered (ctx : WorkingContext)
    (key : String) (xs ys : List JVal)
    (h1 : ctx.config.array_same_order = true)
    (h2 : xs.length = ys.length) :
    findKeyDiffsInValues ctx key (.arr xs) (.arr ys) =
      findKeyDiffsInArrays ctx key 0 xs ys := by
  simp [findKeyDiffsInValues, h1, h2]

/-- The element walk, as a flat map over the index-paired elements. -/
theorem findKeyDiffsInArrays_eq_flatMap (ctx : WorkingContext)
    (key : String) :
    ∀ (i : Nat) (xs ys : List JVal), xs.length = ys.length →
    findKeyDiffsInArrays ctx key i xs ys =
      ((xs.zip ys).enumFrom i).flatMap fun p =>
        findKeyDiffsInValues ctx (indexKey key p.1) p.2.1 p.2.2 := by
  intro i xs
  induction xs generalizing i with
  | nil =>
    intro ys h
    cases ys with
    | nil => simp [findKeyDiffsInArrays]
    | cons y ys => simp at h
  | cons x rest ih =>
    intro ys h
    cases ys with
    | nil => simp at h
    | cons y ys' =>
      simp only [List.length_cons, Nat.add_right_cancel_iff] at h
      simp [findKeyDiffsInArrays, List.zip_cons_cons, List.enumFrom_cons,
        List.flatMap_cons, ih (i + 1) ys' h]

/-- Array pairs of differing length produce no key diffs at all. -/
theorem findKeyDiffsInValues_arr_len_ne (ctx : WorkingContext)
    (key : String) (xs ys : List JVal) (h2 : xs.length ≠ ys.length) :
    findKeyDiffsInValues ctx key (.arr xs) (.arr ys) = [] := by
  simp [findKeyDiffsInValues, h2]

/-!
## Rendering of emitted value diffs (C6): lemmas
-/

/-- Every `ValueDiff` the JSON Value Comparator emits carries the two
unequal values rendered by `renderLeaf` (raw strings, `to_string`
otherwise). -/
theorem json_valueDiff_shape : ∀ n : Nat,
    (∀ (ctx : WorkingContext) (p : String) (a b : JVal), sizeOf a ≤ n →
      ∀ d ∈ findValueDiffsInValues ctx p a b, ∃ va vb : JVal,
        va.beq vb = false ∧ d.value1 = va.renderLeaf ∧
        d.value2 = vb.renderLeaf) ∧
    (∀ (ctx : WorkingContext) (p : String)
      (ea eb : List (String × JVal)), sizeOf ea ≤ n →
      ∀ d ∈ valueCheck ctx p ea eb, ∃ va vb : JVal,
        va.beq vb = false ∧ d.value1 = va.renderLeaf ∧
        d.value2 = vb.renderLeaf) ∧
    (∀ (ctx : WorkingContext) (p : String) (i : Nat) (xs ys : List JVal),
      sizeOf xs ≤ n →
      ∀ d ∈ findValueDiffsInArrays ctx p i xs ys, ∃ va vb : JVal,
        va.beq vb = false ∧ d.value1 = va.renderLeaf ∧
        d.value2 = vb.renderLeaf) := by
  intro n
  induction n using Nat.strong_induction_on with
  | _ n ih =>
    refine ⟨?_, ?_, ?_⟩
    · intro ctx p a b hsz d hd
      cases a with
      | obj ea =>
        cases b with
        | obj eb =>
          have hx : sizeOf ea < n := by simp at hsz; omega
          simp only [findValueDiffsInValues] at hd
          exact (ih _ hx).2.1 ctx p ea eb le_rfl d hd
        | null =>
          simp only [findValueDiffsInValues] at hd
          split at hd
          · rename_i hbeq
            simp only [Bool.not_eq_true] at hbeq
            simp at hd
            exact ⟨_, _, hbeq, by simp [hd]⟩
          · simp at hd
        | bool x =>
          simp only [findValueDiffsInValues] at hd
          split at hd
          · rename_i hbeq
            simp only [Bool.not_eq_true] at hbeq
            simp at hd
            exact ⟨_, _, hbeq, by simp [hd]⟩
          · simp at hd
        | num x =>
          simp only [findValueDiffsInValues] at hd
          split at hd
          · rename_i hbeq
            simp only [Bool.not_eq_true] at hbeq
            simp at hd
            exact ⟨_, _, hbeq, by simp [hd]⟩
          · simp at hd
        | str x =>
          simp only [findValueDiffsInValues] at hd
          split at hd
          · rename_i hbeq
            simp only [Bool.not_eq_true] at hbeq
            simp at hd
            exact ⟨_, _, hbeq, by simp [hd]⟩
          · simp at hd
        | arr x =>
          simp only [findValueDiffsInValues] at hd
          split at hd
          · rename_i hbeq
            simp only [Bool.not_eq_true] at hbeq
            simp at hd
            exact ⟨_, _, hbeq, by simp [hd]⟩
          · simp at hd
      | arr xs =>
        cases b with
        | arr ys =>
          simp only [findValueDiffsInValues] at hd
          split at hd
          · have hx : sizeOf xs < n := by simp at hsz; omega
            exact (ih _ hx).2.2 ctx p 0 xs ys le_rfl d hd
          · split at hd
            · rename_i hbeq
              simp only [Bool.not_eq_true] at hbeq
              simp at hd
              exact ⟨.arr xs, .arr ys, by simpa using hbeq, by simp [hd]⟩
            · simp at hd
        | null =>
          simp only [findValueDiffsInValues] at hd
          split at hd
          · rename_i hbeq
            simp only [Bool.not_eq_true] at hbeq
            simp at hd
            exact ⟨_, _, hbeq, by simp [hd]⟩
          · simp at hd
        | bool x =>
          simp only [findValueDiffsInValues] at hd
          split at hd
          · rename_i hbeq
            simp only [Bool.not_eq_true] at hbeq
            simp at hd
            exact ⟨_, _, hbeq, by simp [hd]⟩
          · simp at hd
        | num x =>
          simp only [findValueDiffsInValues] at hd
          split at hd
          · rename_i hbeq
            simp only [Bool.not_eq_true] at hbeq
            simp at hd
            exact ⟨_, _, hbeq, by simp [hd]⟩
          · simp at hd
        | str x =>
          simp only [findValueDiffsInValues] at hd
          split at hd
          · rename_i hbeq
            simp only [Bool.not_eq_true] at hbeq
            simp at hd
            exact ⟨_, _, hbeq, by simp [hd]⟩
          · simp at hd
        | obj x =>
          simp only [findValueDiffsInValues] at hd
          split at hd
          · rename_i hbeq
            simp only [Bool.not_eq_true] at hbeq
            simp at hd
            exact ⟨_, _, hbeq, by simp [hd]⟩
          · simp at hd
      | null =>
        cases hbeq : JVal.beq .null b with
        | true =>
          simp [findValueDiffsInValues, hbeq] at hd
        | false =>
          simp only [findValueDiffsInValues] at hd
          rw [hbeq] at hd
          simp at hd
          exact ⟨.null, b, hbeq, by simp [hd]⟩
      | bool x =>
        cases hbeq : JVal.beq (.bool x) b with
        | true => simp [findValueDiffsInValues, hbeq] at hd
        | false =>
          simp only [findValueDiffsInValues] at hd
          rw [hbeq] at hd
          simp at hd
          exact ⟨.bool x, b, hbeq, by simp [hd]⟩
      | num x =>
        cases hbeq : JVal.beq (.num x) b with
        | true => simp [findValueDiffsInValues, hbeq] at hd
        | false =>
          simp only [findValueDiffsInValues] at hd
          rw [hbeq] at hd
          simp at hd
          exact ⟨.num x, b, hbeq, by simp [hd]⟩
      | str x =>
        cases hbeq : JVal.beq (.str x) b with
        | true => simp [findValueDiffsInValues, hbeq] at hd
        | false =>
          simp only [findValueDiffsInValues] at hd
          rw [hbeq] at hd
          simp at hd
          exact ⟨.str x, b, hbeq, by simp [hd]⟩
    · intro ctx p ea eb hsz d hd
      cases ea with
      | nil => simp [valueCheck] at hd
      | cons e rest =>
        obtain ⟨k, av⟩ := e
        have hr : sizeOf rest < n := by simp at hsz; omega
        match hbv : JObj.get eb k with
        | some bv =>
          have hav : sizeOf av < n := by simp at hsz; omega
          simp only [valueCheck, hbv, List.mem_append] at hd
          rcases hd with hd | hd
          · exact (ih _ hav).1 ctx (format_key p k) av bv le_rfl d hd
          · exact (ih _ hr).2.1 ctx p rest eb le_rfl d hd
        | none =>
          simp only [valueCheck, hbv, List.nil_append] at hd
          exact (ih _ hr).2.1 ctx p rest eb le_rfl d hd
    · intro ctx p i xs ys hsz d hd
      cases xs with
      | nil => simp [findValueDiffsInArrays] at hd
      | cons x rest =>
        cases ys with
        | nil => simp [findValueDiffsInArrays] at hd
        | cons y rest' =>
          have hx : sizeOf x < n := by simp at hsz; omega
          have hr : sizeOf rest < n := by simp at hsz; omega
          simp only [findValueDiffsInArrays, List.mem_append] at hd
          rcases hd with hd | hd
          · exact (ih _ hx).1 ctx (indexKey p i) x y le_rfl d hd
          · exact (ih _ hr).2.2 ctx p (i + 1) rest rest' le_rfl d hd

theorem yVDV_catchall {p : String} {a b : YVal} {ds : List ValueDiff}
    (h : (if ¬(a.beq b = true) ∧ ¬(a.isSeq = true) ∧ ¬(b.isSeq = true) then
      some [ValueDiff.mk p (yRender a) (yRender b)]
    else some ([] : List ValueDiff)) = some ds) :
    ∀ d ∈ ds, yDiffShape d := by
  intro d hd
  split at h
  · rename_i hcond
    simp only [Option.some_inj] at h
    subst h
    simp at hd
    refine Or.inl ⟨a, b, ?_, ?_, ?_, by simp [hd]⟩
    · simpa using hcond.1
    · simpa using hcond.2.1
    · simpa using hcond.2.2
  · simp only [Option.some_inj] at h
    subst h
    simp at hd

/-- Every `ValueDiff` the YAML Value Comparator emits is either an unequal
non-sequence pair rendered by the `Stringable` rule, or the fixed sentinel
pair for unequal sequences. -/
theorem yaml_valueDiff_shape : ∀ n : Nat,
    (∀ (ctx : WorkingContext) (p : String) (a b : YVal)
      (ds : List ValueDiff), sizeOf a ≤ n →
      yfindValueDiffsInValues ctx p a b = some ds →
      ∀ d ∈ ds, yDiffShape d) ∧
    (∀ (ctx : WorkingContext) (p : String) (ea eb : List (YVal × YVal))
      (ds : List ValueDiff), sizeOf ea ≤ n →
      yvalueCheck ctx p ea eb = some ds → ∀ d ∈ ds, yDiffShape d) ∧
    (∀ (ctx : WorkingContext) (p : String) (i : Nat) (xs ys : List YVal)
      (ds : List ValueDiff), sizeOf xs ≤ n →
      yfindValueDiffsInArrays ctx p i xs ys = some ds →
      ∀ d ∈ ds, yDiffShape d) := by
  intro n
  induction n using Nat.strong_induction_on with
  | _ n ih =>
    refine ⟨?_, ?_, ?_⟩
    · intro ctx p a b ds hsz h d hd
      cases a with
      | map ea =>
        cases b with
        | map eb =>
          have hx : sizeOf ea < n := by simp at hsz; omega
          simp only [yfindValueDiffsInValues] at h
          exact (ih _ hx).2.1 ctx p ea eb ds le_rfl h d hd
        | null =>
          simp only [yfindValueDiffsInValues] at h
          exact yVDV_catchall h d hd
        | bool x =>
          simp only [yfindValueDiffsInValues] at h
          exact yVDV_catchall h d hd
        | num x =>
          simp only [yfindValueDiffsInValues] at h
          exact yVDV_catchall h d hd
        | str x =>
          simp only [yfindValueDiffsInValues] at h
          exact yVDV_catchall h d hd
        | seq x =>
          simp only [yfindValueDiffsInValues] at h
          exact yVDV_catchall h d hd
        | tagged t x =>
          simp only [yfindValueDiffsInValues] at h
          exact yVDV_catchall h d hd
      | seq xs =>
        cases b with
        | seq ys =>
          simp only [yfindValueDiffsInValues] at h
          split at h
          · have hx : sizeOf xs < n := by simp at hsz; omega
            exact (ih _ hx).2.2 ctx p 0 xs ys ds le_rfl h d hd
          · split at h
            · simp only [Option.some_inj] at h
              subst h
              simp at hd
              exact Or.inr (by simp [hd])
            · simp only [Option.some_inj] at h
              subst h
              simp at hd
        | null =>
          simp only [yfindValueDiffsInValues] at h
          exact yVDV_catchall h d hd
        | bool x =>
          simp only [yfindValueDiffsInValues] at h
          exact yVDV_catchall h d hd
        | num x =>
          simp only [yfindValueDiffsInValues] at h
          exact yVDV_catchall h d hd
        | str x =>
          simp only [yfindValueDiffsInValues] at h
          exact yVDV_catchall h d hd
        | map x =>
          simp only [yfindValueDiffsInValues] at h
          exact yVDV_catchall h d hd
        | tagged t x =>
          simp only [yfindValueDiffsInValues] at h
          exact yVDV_catchall h d hd
      | null =>
        simp only [yfindValueDiffsInValues] at h
        exact yVDV_catchall h d hd
      | bool x =>
        simp only [yfindValueDiffsInValues] at h
        exact yVDV_catchall h d hd
      | num x =>
        simp only [yfindValueDiffsInValues] at h
        exact yVDV_catchall h d hd
      | str x =>
        simp only [yfindValueDiffsInValues] at h
        exact yVDV_catchall h d hd
      | tagged t x =>
        simp only [yfindValueDiffsInValues] at h
        exact yVDV_catchall h d hd
    · intro ctx p ea eb ds hsz h d hd
      cases ea with
      | nil =>
        simp [yvalueCheck] at h
        subst h
        simp at hd
      | cons e rest =>
        obtain ⟨k, av⟩ := e
        have hr : sizeOf rest < n := by simp at hsz; omega
        match hbv : YMap.get eb k with
        | some bv =>
          cases hks : k.asStr with
          | none => simp [yvalueCheck, hbv, hks] at h
          | some ks =>
          cases hdv : yfindValueDiffsInValues ctx (format_key p ks) av bv with
          | none => simp [yvalueCheck, hbv, hks, hdv] at h
          | some dl =>
          cases hrr : yvalueCheck ctx p rest eb with
          | none => simp [yvalueCheck, hbv, hks, hdv, hrr] at h
          | some r =>
            simp only [yvalueCheck, hbv, hks, hdv, hrr,
              Option.some_inj] at h
            have hav : sizeOf av < n := by simp at hsz; omega
            subst h
            rcases List.mem_append.mp hd with hd | hd
            · exact (ih _ hav).1 ctx (format_key p ks) av bv dl le_rfl hdv
                d hd
            · exact (ih _ hr).2.1 ctx p rest eb r le_rfl hrr d hd
        | none =>
          simp only [yvalueCheck, hbv] at h
          exact (ih _ hr).2.1 ctx p rest eb ds le_rfl h d hd
    · intro ctx p i xs ys ds hsz h d hd
      cases xs with
      | nil =>
        simp [yfindValueDiffsInArrays] at h
        subst h
        simp at hd
      | cons x rest =>
        cases ys with
        | nil =>
          simp [yfindValueDiffsInArrays] at h
          subst h
          simp at hd
        | cons y rest' =>
          cases hdv : yfindValueDiffsInValues ctx (indexKey p i) x y with
          | none => simp [yfindValueDiffsInArrays, hdv] at h
          | some dl =>
          cases hrr : yfindValueDiffsInArrays ctx p (i + 1) rest rest' with
          | none => simp [yfindValueDiffsInArrays, hdv, hrr] at h
          | some r =>
            simp only [yfindValueDiffsInArrays, hdv, hrr,
              Option.some_inj] at h
            have hx : sizeOf x < n := by simp at hsz; omega
            have hr : sizeOf rest < n := by simp at hsz; omega
            subst h
            rcases List.mem_append.mp hd with hd | hd
            · exact (ih _ hx).1 ctx (indexKey p i) x y dl le_rfl hdv d hd
            · exact (ih _ hr).2.2 ctx p (i + 1) rest rest' r le_rfl hrr d hd

/-!
## Per-path characterization of the Type Comparator (C9): lemmas
-/

/-- The Type Comparator's top loop, as a flat map over `a`'s entries
restricted to shared keys. -/
theorem typeCheck_eq_flatMap (ctx : WorkingContext) (key : String) :
    ∀ (a b : List (String × JVal)),
    typeCheck ctx key a b = a.flatMap fun e =>
      match JObj.get b e.1 with
      | some bv => findTypeDiffsInValues ctx (format_key key e.1) e.2 bv
      | none => [] := by
  intro a
  induction a with
  | nil => intro b; simp [typeCheck]
  | cons e rest ih =>
    intro b
    obtain ⟨k, av⟩ := e
    match hbv : JObj.get b k with
    | some bv => simp [typeCheck, hbv, ih]
    | none => simp [typeCheck, hbv, ih]

/-- Lengths of formatted keys. -/
theorem format_key_length (key k : String) (h : key.isEmpty = false) :
    (format_key key k).length = key.length + 1 + k.length := by
  simp only [format_key, h, Bool.false_eq_true, if_false]
  rw [String.length_append, String.length_append]
  have : ".".length = 1 := rfl
  omega

/-- Lengths of index keys. -/
theorem indexKey_length (key : String) (i : Nat) :
    key.length + 2 ≤ (indexKey key i).length := by
  simp only [indexKey]
  rw [String.length_append, String.length_append, String.length_append]
  have h1 : "[".length = 1 := rfl
  have h2 : "]".length = 1 := rfl
  omega

/-- Every diff of the Type Comparator lives at or below its path: the
diff key is never shorter than the path, diffs from inside the per-key
recursion are strictly longer than a nonempty path. -/
theorem typeDiff_key_length : ∀ n : Nat,
    (∀ (ctx : WorkingContext) (p : String) (a b : JVal), sizeOf a ≤ n →
      ∀ d ∈ findTypeDiffsInValues ctx p a b, p.length ≤ d.key.length) ∧
    (∀ (ctx : WorkingContext) (p : String)
      (ea eb : List (String × JVal)), sizeOf ea ≤ n → p.isEmpty = false →
      ∀ d ∈ typeCheck ctx p ea eb, p.length < d.key.length) ∧
    (∀ (ctx : WorkingContext) (p : String) (i : Nat) (xs ys : List JVal),
      sizeOf xs ≤ n →
      ∀ d ∈ findTypeDiffsInArrays ctx p i xs ys,
        p.length < d.key.length) := by
  intro n
  induction n using Nat.strong_induction_on with
  | _ n ih =>
    refine ⟨?_, ?_, ?_⟩
    · intro ctx p a b hsz d hd
      cases a with
      | obj ea =>
        cases b with
        | obj eb =>
          simp only [findTypeDiffsInValues, JVal.getType, ne_eq,
            not_true_eq_false, if_false, List.append_nil,
            List.nil_append] at hd
          have hx : sizeOf ea < n := by simp at hsz; omega
          by_cases hp : p.isEmpty = true
          · have hp0 : p = "" := (String.isEmpty_iff p).mp hp
            subst hp0
            have h0 : ("" : String).length = 0 := rfl
            omega
          · have := (ih _ hx).2.1 ctx p ea eb le_rfl
              (by simpa using hp) d hd
            omega
        | null => simp [findTypeDiffsInValues, JVal.getType] at hd
          <;> simp [hd]
        | bool x => simp [findTypeDiffsInValues, JVal.getType] at hd
          <;> simp [hd]
        | num x => simp [findTypeDiffsInValues, JVal.getType] at hd
          <;> simp [hd]
        | str x => simp [findTypeDiffsInValues, JVal.getType] at hd
          <;> simp [hd]
        | arr x => simp [findTypeDiffsInValues, JVal.getType] at hd
          <;> simp [hd]
      | arr xs =>
        cases b with
        | arr ys =>
          simp only [findTypeDiffsInValues, JVal.getType, ne_eq,
            not_true_eq_false, if_false, List.append_nil,
            List.nil_append] at hd
          split at hd
          · have hx : sizeOf xs < n := by simp at hsz; omega
            have := (ih _ hx).2.2 ctx p 0 xs ys le_rfl d hd
            omega
          · simp at hd
        | null => simp [findTypeDiffsInValues, JVal.getType] at hd
          <;> simp [hd]
        | bool x => simp [findTypeDiffsInValues, JVal.getType] at hd
          <;> simp [hd]
        | num x => simp [findTypeDiffsInValues, JVal.getType] at hd
          <;> simp [hd]
        | str x => simp [findTypeDiffsInValues, JVal.getType] at hd
          <;> simp [hd]
        | obj x => simp [findTypeDiffsInValues, JVal.getType] at hd
          <;> simp [hd]
      | null => cases b <;> simp [findTypeDiffsInValues, JVal.getType] at hd
          <;> simp [hd]
      | bool x => cases b <;> simp [findTypeDiffsInValues, JVal.getType] at hd
          <;> simp [hd]
      | num x => cases b <;> simp [findTypeDiffsInValues, JVal.getType] at hd
          <;> simp [hd]
      | str x => cases b <;> simp [findTypeDiffsInValues, JVal.getType] at hd
          <;> simp [hd]
    · intro ctx p ea eb hsz hp d hd
      rw [typeCheck_eq_flatMap] at hd
      rcases List.mem_flatMap.mp hd with ⟨e, hme, hd⟩
      match hbv : JObj.get eb e.1 with
      | some bv =>
        rw [hbv] at hd
        have h1 : sizeOf e.2 < n := by
          have h2 := List.sizeOf_lt_of_mem hme
          have h3 : sizeOf e.2 < sizeOf e := by
            obtain ⟨k, v⟩ := e
            simp
          omega
        have hmono := (ih _ h1).1 ctx (format_key p e.1) e.2 bv le_rfl d hd
        rw [format_key_length p e.1 hp] at hmono
        omega
      | none =>
        rw [hbv] at hd
        simp at hd
    · intro ctx p i xs ys hsz d hd
      cases xs with
      | nil => simp [findTypeDiffsInArrays] at hd
      | cons x rest =>
        cases ys with
        | nil => simp [findTypeDiffsInArrays] at hd
        | cons y rest' =>
          simp only [findTypeDiffsInArrays, List.mem_append] at hd
          rcases hd with hd | hd
          · have hx : sizeOf x < n := by simp at hsz; omega
            have hmono := (ih _ hx).1 ctx (indexKey p i) x y le_rfl d hd
            have hlen := indexKey_length p i
            omega
          · have hr : sizeOf rest < n := by simp at hsz; omega
            exact (ih _ hr).2.2 ctx p (i + 1) rest rest' le_rfl d hd

/-- At a (nonempty) path, the Type Comparator's per-pair output contains a
`TypeDiff` with exactly that path precisely when the two kind tags differ,
and that diff carries the two rendered kind names. -/
theorem findTypeDiffs_filter_at_path (ctx : WorkingContext) (p : String)
    (a b : JVal) (hp : p.isEmpty = false) :
    (findTypeDiffsInValues ctx p a b).filter (fun d => decide (d.key = p)) =
      if a.getType = b.getType then []
      else [TypeDiff.mk p a.getType.toDisplayString
        b.getType.toDisplayString] := by
  have hstrict : ∀ (ea eb : List (String × JVal)),
      ∀ d ∈ typeCheck ctx p ea eb, ¬(d.key = p) := by
    intro ea eb d hd he
    have := (typeDiff_key_length (sizeOf ea)).2.1 ctx p ea eb le_rfl hp d hd
    rw [he] at this
    omega
  have harr : ∀ (i : Nat) (xs ys : List JVal),
      ∀ d ∈ findTypeDiffsInArrays ctx p i xs ys, ¬(d.key = p) := by
    intro i xs ys d hd he
    have := (typeDiff_key_length (sizeOf xs)).2.2 ctx p i xs ys le_rfl d hd
    rw [he] at this
    omega
  cases a with
  | obj ea =>
    cases b with
    | obj eb =>
      have h1 : (typeCheck ctx p ea eb).filter
          (fun d => decide (d.key = p)) = [] :=
        List.filter_eq_nil_iff.mpr fun d hd => by
          simpa using hstrict ea eb d hd
      simp [findTypeDiffsInValues, JVal.getType, List.filter_append, h1]
    | null => simp [findTypeDiffsInValues, JVal.getType]
    | bool x => simp [findTypeDiffsInValues, JVal.getType]
    | num x => simp [findTypeDiffsInValues, JVal.getType]
    | str x => simp [findTypeDiffsInValues, JVal.getType]
    | arr x => simp [findTypeDiffsInValues, JVal.getType]
  | arr xs =>
    cases b with
    | arr ys =>
      have h2 : ∀ (l : List TypeDiff),
          l = findTypeDiffsInArrays ctx p 0 xs ys →
          l.filter (fun d => decide (d.key = p)) = [] := by
        intro l hl
        exact List.filter_eq_nil_iff.mpr fun d hd => by
          simpa using harr 0 xs ys d (hl ▸ hd)
      simp only [findTypeDiffsInValues, JVal.getType, ne_eq,
        not_true_eq_false, if_false, List.append_nil, List.nil_append]
      split
      · simp [h2 _ rfl]
      · simp
    | null => simp [findTypeDiffsInValues, JVal.getType]
    | bool x => simp [findTypeDiffsInValues, JVal.getType]
    | num x => simp [findTypeDiffsInValues, JVal.getType]
    | str x => simp [findTypeDiffsInValues, JVal.getType]
    | obj x => simp [findTypeDiffsInValues, JVal.getType]
  | null => cases b <;> simp [findTypeDiffsInValues, JVal.getType]
  | bool x => cases b <;> simp [findTypeDiffsInValues, JVal.getType]
  | num x => cases b <;> simp [findTypeDiffsInValues, JVal.getType]
  | str x => cases b <;> simp [findTypeDiffsInValues, JVal.getType]

/-- The rendered kind names are drawn from the six documented strings. -/
theorem valueTypeName_mem (v : JVal) :
    v.getType.toDisplayString ∈
      (["null", "bool", "number", "string", "array", "object"] :
        List String) := by
  cases v <;> simp [JVal.getType, ValueType.toDisplayString]

/-!
## Normal return of the YAML checkers (C10): lemmas

Each YAML checker returns `some` exactly when the corresponding
visited-key predicate holds.
-/

theorem YVal.isStr_eq_isSome_asStr (k : YVal) : k.isStr = k.asStr.isSome := by
  cases k <;> rfl

/-- The YAML Type Comparator family returns normally exactly when all
visited (shared) mapping keys are strings. -/
theorem ytype_isSome_iff : ∀ n : Nat,
    (∀ (ctx : WorkingContext) (key : String) (a b : List (YVal × YVal)),
      sizeOf a ≤ n →
      ((ytypeCheck ctx key a b).isSome ↔
        ySharedVisitOkEntries ctx a b = true)) ∧
    (∀ (ctx : WorkingContext) (key : String) (a b : YVal), sizeOf a ≤ n →
      ((yfindTypeDiffsInValues ctx key a b).isSome ↔
        ySharedVisitOkValues ctx a b = true)) ∧
    (∀ (ctx : WorkingContext) (key : String) (i : Nat) (xs ys : List YVal),
      sizeOf xs ≤ n →
      ((yfindTypeDiffsInArrays ctx key i xs ys).isSome ↔
        ySharedVisitOkSeq ctx xs ys = true)) := by
  intro n
  induction n using Nat.strong_induction_on with
  | _ n ih =>
    refine ⟨?_, ?_, ?_⟩
    · intro ctx key a b hsz
      cases a with
      | nil => simp [ytypeCheck, ySharedVisitOkEntries]
      | cons e rest =>
        obtain ⟨k, av⟩ := e
        have hr : sizeOf rest < n := by simp at hsz; omega
        have i2 := (ih _ hr).1 ctx key rest b le_rfl
        match hbv : YMap.get b k with
        | some bv =>
          have hav : sizeOf av < n := by simp at hsz; omega
          have i1 := (ih _ hav).2.1 ctx (format_key key
            (match k.asStr with | some s => s | none => "")) av bv le_rfl
          cases hks : k.asStr with
          | none =>
            have hstr : k.isStr = false := by
              rw [YVal.isStr_eq_isSome_asStr, hks]
              rfl
            simp [ytypeCheck, ySharedVisitOkEntries, hbv, hks, hstr]
          | some ks =>
            have hstr : k.isStr = true := by
              rw [YVal.isStr_eq_isSome_asStr, hks]
              rfl
            have i1' := (ih _ hav).2.1 ctx (format_key key ks) av bv le_rfl
            cases h1 : yfindTypeDiffsInValues ctx (format_key key ks) av bv
              with
            | none =>
              rw [h1] at i1'
              simp at i1'
              simp [ytypeCheck, ySharedVisitOkEntries, hbv, hks, hstr, h1,
                i1']
            | some d =>
              rw [h1] at i1'
              simp at i1'
              cases h2 : ytypeCheck ctx key rest b with
              | none =>
                rw [h2] at i2
                simp at i2
                simp [ytypeCheck, ySharedVisitOkEntries, hbv, hks, hstr, h1,
                  h2, i2]
              | some r =>
                rw [h2] at i2
                simp at i2
                simp [ytypeCheck, ySharedVisitOkEntries, hbv, hks, hstr, h1,
                  h2, i1', i2]
        | none =>
          simp only [ytypeCheck, hbv]
          rw [i2]
          simp [ySharedVisitOkEntries, hbv]
    · intro ctx key a b hsz
      cases a with
      | map ea =>
        cases b with
        | map eb =>
          have hx : sizeOf ea < n := by simp at hsz; omega
          have i1 := (ih _ hx).1 ctx key ea eb le_rfl
          cases h1 : ytypeCheck ctx key ea eb with
          | none =>
            rw [h1] at i1
            simp at i1
            simp [yfindTypeDiffsInValues, ySharedVisitOkValues, h1, ← i1]
          | some d =>
            rw [h1] at i1
            simp at i1
            simp [yfindTypeDiffsInValues, ySharedVisitOkValues, h1, i1]
        | null => simp [yfindTypeDiffsInValues, ySharedVisitOkValues]
        | bool x => simp [yfindTypeDiffsInValues, ySharedVisitOkValues]
        | num x => simp [yfindTypeDiffsInValues, ySharedVisitOkValues]
        | str x => simp [yfindTypeDiffsInValues, ySharedVisitOkValues]
        | seq x => simp [yfindTypeDiffsInValues, ySharedVisitOkValues]
        | tagged t x => simp [yfindTypeDiffsInValues, ySharedVisitOkValues]
      | seq xs =>
        cases b with
        | seq ys =>
          have hx : sizeOf xs < n := by simp at hsz; omega
          have i3 := (ih _ hx).2.2 ctx key 0 xs ys le_rfl
          by_cases hc : ctx.config.array_same_order = true ∧
              xs.length = ys.length
          · cases h3 : yfindTypeDiffsInArrays ctx key 0 xs ys with
            | none =>
              rw [h3] at i3
              simp at i3
              simp [yfindTypeDiffsInValues, ySharedVisitOkValues, hc, h3,
                ← i3]
            | some d =>
              rw [h3] at i3
              simp at i3
              simp [yfindTypeDiffsInValues, ySharedVisitOkValues, hc, h3, i3]
          · simp [yfindTypeDiffsInValues, ySharedVisitOkValues, hc]
        | null => simp [yfindTypeDiffsInValues, ySharedVisitOkValues]
        | bool x => simp [yfindTypeDiffsInValues, ySharedVisitOkValues]
        | num x => simp [yfindTypeDiffsInValues, ySharedVisitOkValues]
        | str x => simp [yfindTypeDiffsInValues, ySharedVisitOkValues]
        | map x => simp [yfindTypeDiffsInValues, ySharedVisitOkValues]
        | tagged t x => simp [yfindTypeDiffsInValues, ySharedVisitOkValues]
      | null =>
        cases b <;> simp [yfindTypeDiffsInValues, ySharedVisitOkValues]
      | bool x =>
        cases b <;> simp [yfindTypeDiffsInValues, ySharedVisitOkValues]
      | num x =>
        cases b <;> simp [yfindTypeDiffsInValues, ySharedVisitOkValues]
      | str x =>
        cases b <;> simp [yfindTypeDiffsInValues, ySharedVisitOkValues]
      | tagged t x =>
        cases b <;> simp [yfindTypeDiffsInValues, ySharedVisitOkValues]
    · intro ctx key i xs ys hsz
      cases xs with
      | nil => simp [yfindTypeDiffsInArrays, ySharedVisitOkSeq]
      | cons x rest =>
        cases ys with
        | nil => simp [yfindTypeDiffsInArrays, ySharedVisitOkSeq]
        | cons y rest' =>
          have hx : sizeOf x < n := by simp at hsz; omega
          have hr : sizeOf rest < n := by simp at hsz; omega
          have i1 := (ih _ hx).2.1 ctx (indexKey key i) x y le_rfl
          have i2 := (ih _ hr).2.2 ctx key (i + 1) rest rest' le_rfl
          cases h1 : yfindTypeDiffsInValues ctx (indexKey key i) x y with
          | none =>
            rw [h1] at i1
            simp at i1
            simp [yfindTypeDiffsInArrays, ySharedVisitOkSeq, h1, ← i1]
          | some d =>
            rw [h1] at i1
            simp at i1
            cases h2 : yfindTypeDiffsInArrays ctx key (i + 1) rest rest' with
            | none =>
              rw [h2] at i2
              simp at i2
              simp [yfindTypeDiffsInArrays, ySharedVisitOkSeq, h1, h2, ← i2]
            | some r =>
              rw [h2] at i2
              simp at i2
              simp [yfindTypeDiffsInArrays, ySharedVisitOkSeq, h1, h2, i1, i2]

theorem isSome_ite_some {α : Type} {c : Prop} [inst : Decidable c]
    (x y : α) : (if c then some x else some y).isSome = true := by
  split <;> rfl

/-- The YAML Value Comparator family returns normally exactly when all
visited (shared) mapping keys are strings. -/
theorem yvalue_isSome_iff : ∀ n : Nat,
    (∀ (ctx : WorkingContext) (key : String) (a b : List (YVal × YVal)),
      sizeOf a ≤ n →
      ((yvalueCheck ctx key a b).isSome ↔
        ySharedVisitOkEntries ctx a b = true)) ∧
    (∀ (ctx : WorkingContext) (key : String) (a b : YVal), sizeOf a ≤ n →
      ((yfindValueDiffsInValues ctx key a b).isSome ↔
        ySharedVisitOkValues ctx a b = true)) ∧
    (∀ (ctx : WorkingContext) (key : String) (i : Nat) (xs ys : List YVal),
      sizeOf xs ≤ n →
      ((yfindValueDiffsInArrays ctx key i xs ys).isSome ↔
        ySharedVisitOkSeq ctx xs ys = true)) := by
  intro n
  induction n using Nat.strong_induction_on with
  | _ n ih =>
    refine ⟨?_, ?_, ?_⟩
    · intro ctx key a b hsz
      cases a with
      | nil => simp [yvalueCheck, ySharedVisitOkEntries]
      | cons e rest =>
        obtain ⟨k, av⟩ := e
        have hr : sizeOf rest < n := by simp at hsz; omega
        have i2 := (ih _ hr).1 ctx key rest b le_rfl
        match hbv : YMap.get b k with
        | some bv =>
          have hav : sizeOf av < n := by simp at hsz; omega
          cases hks : k.asStr with
          | none =>
            have hstr : k.isStr = false := by
              rw [YVal.isStr_eq_isSome_asStr, hks]
              rfl
            simp [yvalueCheck, ySharedVisitOkEntries, hbv, hks, hstr]
          | some ks =>
            have hstr : k.isStr = true := by
              rw [YVal.isStr_eq_isSome_asStr, hks]
              rfl
            have i1 := (ih _ hav).2.1 ctx (format_key key ks) av bv le_rfl
            cases h1 : yfindValueDiffsInValues ctx (format_key key ks) av bv
              with
            | none =>
              rw [h1] at i1
              simp at i1
              simp [yvalueCheck, ySharedVisitOkEntries, hbv, hks, hstr, h1,
                i1]
            | some d =>
              rw [h1] at i1
              simp at i1
              cases h2 : yvalueCheck ctx key rest b with
              | none =>
                rw [h2] at i2
                simp at i2
                simp [yvalueCheck, ySharedVisitOkEntries, hbv, hks, hstr, h1,
                  h2, i2]
              | some r =>
                rw [h2] at i2
                simp at i2
                simp [yvalueCheck, ySharedVisitOkEntries, hbv, hks, hstr, h1,
                  h2, i1, i2]
        | none =>
          simp only [yvalueCheck, hbv]
          rw [i2]
          simp [ySharedVisitOkEntries, hbv]
    · intro ctx key a b hsz
      cases a with
      | map ea =>
        cases b with
        | map eb =>
          have hx : sizeOf ea < n := by simp at hsz; omega
          have i1 := (ih _ hx).1 ctx key ea eb le_rfl
          cases h1 : yvalueCheck ctx key ea eb with
          | none =>
            rw [h1] at i1
            simp at i1
            simp [yfindValueDiffsInValues, ySharedVisitOkValues, h1, i1]
          | some d =>
            rw [h1] at i1
            simp at i1
            simp [yfindValueDiffsInValues, ySharedVisitOkValues, h1, i1]
        | null => simp [yfindValueDiffsInValues, ySharedVisitOkValues, isSome_ite_some]
        | bool x => simp [yfindValueDiffsInValues, ySharedVisitOkValues, isSome_ite_some]
        | num x => simp [yfindValueDiffsInValues, ySharedVisitOkValues, isSome_ite_some]
        | str x => simp [yfindValueDiffsInValues, ySharedVisitOkValues, isSome_ite_some]
        | seq x => simp [yfindValueDiffsInValues, ySharedVisitOkValues, isSome_ite_some]
        | tagged t x => simp [yfindValueDiffsInValues, ySharedVisitOkValues, isSome_ite_some]
      | seq xs =>
        cases b with
        | seq ys =>
          have hx : sizeOf xs < n := by simp at hsz; omega
          have i3 := (ih _ hx).2.2 ctx key 0 xs ys le_rfl
          by_cases hc : ctx.config.array_same_order = true ∧
              xs.length = ys.length
          · cases h3 : yfindValueDiffsInArrays ctx key 0 xs ys with
            | none =>
              rw [h3] at i3
              simp at i3
              simp [yfindValueDiffsInValues, ySharedVisitOkValues, hc, h3, i3]
            | some d =>
              rw [h3] at i3
              simp at i3
              simp [yfindValueDiffsInValues, ySharedVisitOkValues, hc, h3, i3]
          · by_cases hbeq : (YVal.seq xs).beq (YVal.seq ys) = true
            · simp [yfindValueDiffsInValues, ySharedVisitOkValues, hc, hbeq]
            · simp [yfindValueDiffsInValues, ySharedVisitOkValues, hc, hbeq]
        | null => simp [yfindValueDiffsInValues, ySharedVisitOkValues, isSome_ite_some]
        | bool x => simp [yfindValueDiffsInValues, ySharedVisitOkValues, isSome_ite_some]
        | num x => simp [yfindValueDiffsInValues, ySharedVisitOkValues, isSome_ite_some]
        | str x => simp [yfindValueDiffsInValues, ySharedVisitOkValues, isSome_ite_some]
        | map x => simp [yfindValueDiffsInValues, ySharedVisitOkValues, isSome_ite_some]
        | tagged t x => simp [yfindValueDiffsInValues, ySharedVisitOkValues, isSome_ite_some]
      | null =>
        cases b <;> simp [yfindValueDiffsInValues, ySharedVisitOkValues, isSome_ite_some]
      | bool x =>
        cases b <;> simp [yfindValueDiffsInValues, ySharedVisitOkValues, isSome_ite_some]
      | num x =>
        cases b <;> simp [yfindValueDiffsInValues, ySharedVisitOkValues, isSome_ite_some]
      | str x =>
        cases b <;> simp [yfindValueDiffsInValues, ySharedVisitOkValues, isSome_ite_some]
      | tagged t x =>
        cases b <;> simp [yfindValueDiffsInValues, ySharedVisitOkValues, isSome_ite_some]
    · intro ctx key i xs ys hsz
      cases xs with
      | nil => simp [yfindValueDiffsInArrays, ySharedVisitOkSeq]
      | cons x rest =>
        cases ys with
        | nil => simp [yfindValueDiffsInArrays, ySharedVisitOkSeq]
        | cons y rest' =>
          have hx : sizeOf x < n := by simp at hsz; omega
          have hr : sizeOf rest < n := by simp at hsz; omega
          have i1 := (ih _ hx).2.1 ctx (indexKey key i) x y le_rfl
          have i2 := (ih _ hr).2.2 ctx key (i + 1) rest rest' le_rfl
          cases h1 : yfindValueDiffsInValues ctx (indexKey key i) x y with
          | none =>
            rw [h1] at i1
            simp at i1
            simp [yfindValueDiffsInArrays, ySharedVisitOkSeq, h1, i1]
          | some d =>
            rw [h1] at i1
            simp at i1
            cases h2 : yfindValueDiffsInArrays ctx key (i + 1) rest rest' with
            | none =>
              rw [h2] at i2
              simp at i2
              simp [yfindValueDiffsInArrays, ySharedVisitOkSeq, h1, h2, i2]
            | some r =>
              rw [h2] at i2
              simp at i2
              simp [yfindValueDiffsInArrays, ySharedVisitOkSeq, h1, h2, i1,
                i2]

/-- `calculate_difference` only produces string values. -/
theorem ycalculateDifference_all_str :
    ∀ (ca cb : List (String × Int)), ∀ v ∈ ycalculateDifference ca cb,
    ∃ s, v = YVal.str s := by
  intro ca
  induction ca with
  | nil => intro cb v hv; simp [ycalculateDifference] at hv
  | cons e rest ih =>
    intro cb v hv
    obtain ⟨k, c⟩ := e
    simp only [ycalculateDifference, List.mem_append] at hv
    rcases hv with hv | hv
    · exact ⟨k, (List.mem_replicate.mp hv).2⟩
    · exact ih cb v hv

/-- Emitting a list of string values never panics. -/
theorem yemit_isSome_of_str (key : String) (desc : ArrayDiffDesc) :
    ∀ (vs : List YVal), (∀ v ∈ vs, ∃ s, v = YVal.str s) →
    (yemit key desc vs).isSome = true := by
  intro vs
  induction vs with
  | nil => intro _; simp [yemit]
  | cons v rest ih =>
    intro h
    obtain ⟨s, hs⟩ := h v (List.mem_cons_self _ _)
    subst hs
    have hr := ih fun v hv => h v (List.mem_cons_of_mem _ hv)
    cases hrr : yemit key desc rest with
    | none => rw [hrr] at hr; simp at hr
    | some r => simp [yemit, YVal.asStr, hrr]

/-- The YAML Array Comparator family returns normally exactly when all
visited (shared) mapping keys are strings. -/
theorem yarray_isSome_iff : ∀ n : Nat,
    (∀ (ctx : WorkingContext) (key : String) (a b : List (YVal × YVal)),
      sizeOf a ≤ n →
      ((yarrayCheckEntries ctx key a b).isSome ↔
        yArrayVisitOkEntries ctx a b = true)) ∧
    (∀ (ctx : WorkingContext) (key : String) (a b : YVal), sizeOf a ≤ n →
      ((yfindArrayDiffsInValues ctx key a b).isSome ↔
        yArrayVisitOkValues ctx a b = true)) := by
  intro n
  induction n using Nat.strong_induction_on with
  | _ n ih =>
    have hgate : ∀ (ctx : WorkingContext) (key : String)
        (ea eb : List (YVal × YVal)), sizeOf ea < n →
        ((yarrayCheck ctx key ea eb).isSome ↔
          yArrayVisitOk ctx ea eb = true) := by
      intro ctx key ea eb hsz
      rw [yarrayCheck, yArrayVisitOk]
      split
      · simp
      · exact (ih _ hsz).1 ctx key ea eb le_rfl
    refine ⟨?_, ?_⟩
    · intro ctx key a b hsz
      cases a with
      | nil => simp [yarrayCheckEntries, yArrayVisitOkEntries]
      | cons e rest =>
        obtain ⟨k, av⟩ := e
        have hr : sizeOf rest < n := by simp at hsz; omega
        have i2 := (ih _ hr).1 ctx key rest b le_rfl
        match hbv : YMap.get b k with
        | some bv =>
          have hav : sizeOf av < n := by simp at hsz; omega
          cases hks : k.asStr with
          | none =>
            have hstr : k.isStr = false := by
              rw [YVal.isStr_eq_isSome_asStr, hks]
              rfl
            simp [yarrayCheckEntries, yArrayVisitOkEntries, hbv, hks, hstr]
          | some ks =>
            have hstr : k.isStr = true := by
              rw [YVal.isStr_eq_isSome_asStr, hks]
              rfl
            have i1 := (ih _ hav).2 ctx (format_key key ks) av bv le_rfl
            cases h1 : yfindArrayDiffsInValues ctx (format_key key ks) av bv
              with
            | none =>
              rw [h1] at i1
              simp at i1
              simp [yarrayCheckEntries, yArrayVisitOkEntries, hbv, hks,
                hstr, h1, i1]
            | some d =>
              rw [h1] at i1
              simp at i1
              cases h2 : yarrayCheckEntries ctx key rest b with
              | none =>
                rw [h2] at i2
                simp at i2
                simp [yarrayCheckEntries, yArrayVisitOkEntries, hbv, hks,
                  hstr, h1, h2, i2]
              | some r =>
                rw [h2] at i2
                simp at i2
                simp [yarrayCheckEntries, yArrayVisitOkEntries, hbv, hks,
                  hstr, h1, h2, i1, i2]
        | none =>
          simp only [yarrayCheckEntries, hbv]
          rw [i2]
          simp [yArrayVisitOkEntries, hbv]
    · intro ctx key a b hsz
      have hemit : ∀ (xs ys : List YVal),
          (match yemit key .AHas (ycountOccurrences xs ys).1,
                 yemit key .AMisses (ycountOccurrences xs ys).2.1,
                 yemit key .BHas (ycountOccurrences xs ys).2.2.1,
                 yemit key .BMisses (ycountOccurrences xs ys).2.2.2 with
           | some e1, some e2, some e3, some e4 =>
             some (e1 ++ e2 ++ e3 ++ e4)
           | _, _, _, _ => none).isSome = true := by
        intro xs ys
        have hstr1 := ycalculateDifference_all_str (ycountItems xs)
          (ycountItems ys)
        have hstr2 := ycalculateDifference_all_str (ycountItems ys)
          (ycountItems xs)
        have e1 := yemit_isSome_of_str key .AHas _ hstr1
        have e2 := yemit_isSome_of_str key .AMisses _ hstr2
        have e3 := yemit_isSome_of_str key .BHas _ hstr2
        have e4 := yemit_isSome_of_str key .BMisses _ hstr1
        simp only [ycountOccurrences]
        cases hc1 : yemit key .AHas
            (ycalculateDifference (ycountItems xs) (ycountItems ys)) with
        | none => rw [hc1] at e1; simp at e1
        | some l1 =>
        cases hc2 : yemit key .AMisses
            (ycalculateDifference (ycountItems ys) (ycountItems xs)) with
        | none => rw [hc2] at e2; simp at e2
        | some l2 =>
        cases hc3 : yemit key .BHas
            (ycalculateDifference (ycountItems ys) (ycountItems xs)) with
        | none => rw [hc3] at e3; simp at e3
        | some l3 =>
        cases hc4 : yemit key .BMisses
            (ycalculateDifference (ycountItems xs) (ycountItems ys)) with
        | none => rw [hc4] at e4; simp at e4
        | some l4 => simp
      cases a with
      | map ea =>
        cases b with
        | map eb =>
          have hx : sizeOf ea < n := by simp at hsz; omega
          have i1 := hgate ctx key ea eb hx
          cases h1 : yarrayCheck ctx key ea eb with
          | none =>
            rw [h1] at i1
            simp at i1
            simp [yfindArrayDiffsInValues, yArrayVisitOkValues, h1, i1]
          | some d =>
            rw [h1] at i1
            simp at i1
            simp [yfindArrayDiffsInValues, yArrayVisitOkValues, h1, i1]
        | null => simp [yfindArrayDiffsInValues, yArrayVisitOkValues]
        | bool x => simp [yfindArrayDiffsInValues, yArrayVisitOkValues]
        | num x => simp [yfindArrayDiffsInValues, yArrayVisitOkValues]
        | str x => simp [yfindArrayDiffsInValues, yArrayVisitOkValues]
        | seq x => simp [yfindArrayDiffsInValues, yArrayVisitOkValues]
        | tagged t x => simp [yfindArrayDiffsInValues, yArrayVisitOkValues]
      | seq xs =>
        cases b with
        | seq ys =>
          have := hemit xs ys
          simp only [yfindArrayDiffsInValues, yArrayVisitOkValues]
          cases hm : (match yemit key .AHas (ycountOccurrences xs ys).1,
                 yemit key .AMisses (ycountOccurrences xs ys).2.1,
                 yemit key .BHas (ycountOccurrences xs ys).2.2.1,
                 yemit key .BMisses (ycountOccurrences xs ys).2.2.2 with
           | some e1, some e2, some e3, some e4 =>
             some (e1 ++ e2 ++ e3 ++ e4)
           | _, _, _, _ => none) with
          | none => rw [hm] at this; simp at this
          | some l => simp [hm]
        | null => simp [yfindArrayDiffsInValues, yArrayVisitOkValues]
        | bool x => simp [yfindArrayDiffsInValues, yArrayVisitOkValues]
        | num x => simp [yfindArrayDiffsInValues, yArrayVisitOkValues]
        | str x => simp [yfindArrayDiffsInValues, yArrayVisitOkValues]
        | map x => simp [yfindArrayDiffsInValues, yArrayVisitOkValues]
        | tagged t x => simp [yfindArrayDiffsInValues, yArrayVisitOkValues]
      | null =>
        cases b <;> simp [yfindArrayDiffsInValues, yArrayVisitOkValues]
      | bool x =>
        cases b <;> simp [yfindArrayDiffsInValues, yArrayVisitOkValues]
      | num x =>
        cases b <;> simp [yfindArrayDiffsInValues, yArrayVisitOkValues]
      | str x =>
        cases b <;> simp [yfindArrayDiffsInValues, yArrayVisitOkValues]
      | tagged t x =>
        cases b <;> simp [yfindArrayDiffsInValues, yArrayVisitOkValues]

/-- The gated YAML Array Comparator returns normally exactly when its
visited-key predicate holds. -/
theorem yarrayCheck_isSome_iff (ctx : WorkingContext) (key : String)
    (a b : List (YVal × YVal)) :
    (yarrayCheck ctx key a b).isSome ↔ yArrayVisitOk ctx a b = true := by
  rw [yarrayCheck, yArrayVisitOk]
  split
  · simp
  · exact (yarray_isSome_iff (sizeOf a)).1 ctx key a b le_rfl

/-- `get_b_keys` returns normally exactly when every key of `b` is a
string. -/
theorem ygetBKeys_isSome_iff (key : String) :
    ∀ (b : List (YVal × YVal)),
    ((ygetBKeys key b).isSome ↔ b.all (fun e => e.1.isStr) = true) := by
  intro b
  induction b with
  | nil => simp [ygetBKeys]
  | cons e rest ih =>
    cases hks : e.1.asStr with
    | none =>
      have hstr : e.1.isStr = false := by
        rw [YVal.isStr_eq_isSome_asStr, hks]
        rfl
      simp [ygetBKeys, hks, hstr]
    | some s =>
      have hstr : e.1.isStr = true := by
        rw [YVal.isStr_eq_isSome_asStr, hks]
        rfl
      cases hr : ygetBKeys key rest with
      | none =>
        rw [hr] at ih
        simp at ih
        simp [ygetBKeys, hks, hr, hstr, ih]
      | some l =>
        rw [hr] at ih
        simp at ih
        simp [ygetBKeys, hks, hr, hstr]
        exact ih

/-- The walk of `check_a` and the value descent of the YAML Key
Comparator return normally exactly when their visited-key predicates
hold (in particular, never when a shared equal-length sequence pair is
visited in ordered mode). -/
theorem ykey_isSome_iff : ∀ n : Nat,
    (∀ (ctx : WorkingContext) (key : String) (a b : List (YVal × YVal))
      (bKeys : List String), sizeOf a ≤ n →
      ((ykeyCheckA ctx key a b bKeys).isSome ↔
        yKeyVisitOkA ctx a b = true)) ∧
    (∀ (ctx : WorkingContext) (key : String) (a b : YVal), sizeOf a ≤ n →
      ((yfindKeyDiffsInValues ctx key a b).isSome ↔
        yKeyVisitOkValues ctx a b = true)) := by
  intro n
  induction n using Nat.strong_induction_on with
  | _ n ih =>
    have hkc : ∀ (ctx : WorkingContext) (key : String)
        (ea eb : List (YVal × YVal)), sizeOf ea < n →
        ((ykeyCheck ctx key ea eb).isSome ↔ yKeyVisitOk ctx ea eb = true) := by
      intro ctx key ea eb hsz
      rw [ykeyCheck, yKeyVisitOk]
      cases hbk : ygetBKeys key eb with
      | none =>
        have := (ygetBKeys_isSome_iff key eb)
        rw [hbk] at this
        simp at this
        simp [hbk, this]
      | some bKeys =>
        have hb := (ygetBKeys_isSome_iff key eb)
        rw [hbk] at hb
        simp at hb
        have ha := (ih _ hsz).1 ctx key ea eb bKeys le_rfl
        cases hca : ykeyCheckA ctx key ea eb bKeys with
        | none =>
          rw [hca] at ha
          simp at ha
          simp [hbk, hca, hb, ha]
        | some r =>
          rw [hca] at ha
          simp at ha
          simp [hbk, hca, ha]
          exact hb
    refine ⟨?_, ?_⟩
    · intro ctx key a b bKeys hsz
      cases a with
      | nil => simp [ykeyCheckA, yKeyVisitOkA]
      | cons e rest =>
        obtain ⟨k, av⟩ := e
        have hr : sizeOf rest < n := by simp at hsz; omega
        cases hks : k.asStr with
        | none =>
          have hstr : k.isStr = false := by
            rw [YVal.isStr_eq_isSome_asStr, hks]
            rfl
          simp [ykeyCheckA, yKeyVisitOkA, hks, hstr]
        | some ks =>
          have hstr : k.isStr = true := by
            rw [YVal.isStr_eq_isSome_asStr, hks]
            rfl
          match hbv : YMap.get b k with
          | some bv =>
            have hav : sizeOf av < n := by simp at hsz; omega
            have i1 := (ih _ hav).2 ctx (format_key key ks) av bv le_rfl
            cases h1 : yfindKeyDiffsInValues ctx (format_key key ks) av bv
              with
            | none =>
              rw [h1] at i1
              simp at i1
              simp [ykeyCheckA, yKeyVisitOkA, hks, hstr, hbv, h1, i1]
            | some d =>
              rw [h1] at i1
              simp at i1
              have i2 := (ih _ hr).1 ctx key rest b (bKeys.erase
                (format_key key ks)) le_rfl
              cases h2 : ykeyCheckA ctx key rest b (bKeys.erase
                  (format_key key ks)) with
              | none =>
                rw [h2] at i2
                simp at i2
                simp [ykeyCheckA, yKeyVisitOkA, hks, hstr, hbv, h1, h2, i2]
              | some r =>
                rw [h2] at i2
                simp at i2
                simp [ykeyCheckA, yKeyVisitOkA, hks, hstr, hbv, h1, h2, i1,
                  i2]
          | none =>
            have i2 := (ih _ hr).1 ctx key rest b bKeys le_rfl
            cases h2 : ykeyCheckA ctx key rest b bKeys with
            | none =>
              rw [h2] at i2
              simp at i2
              simp [ykeyCheckA, yKeyVisitOkA, hks, hstr, hbv, h2, i2]
            | some r =>
              rw [h2] at i2
              simp at i2
              simp [ykeyCheckA, yKeyVisitOkA, hks, hstr, hbv, h2, i2]
    · intro ctx key a b hsz
      cases a with
      | map ea =>
        cases b with
        | map eb =>
          have hx : sizeOf ea < n := by simp at hsz; omega
          have i1 := hkc ctx key ea eb hx
          cases h1 : ykeyCheck ctx key ea eb with
          | none =>
            rw [h1] at i1
            simp at i1
            simp [yfindKeyDiffsInValues, yKeyVisitOkValues, h1, i1]
          | some d =>
            rw [h1] at i1
            simp at i1
            simp [yfindKeyDiffsInValues, yKeyVisitOkValues, h1, i1]
        | null => simp [yfindKeyDiffsInValues, yKeyVisitOkValues]
        | bool x => simp [yfindKeyDiffsInValues, yKeyVisitOkValues]
        | num x => simp [yfindKeyDiffsInValues, yKeyVisitOkValues]
        | str x => simp [yfindKeyDiffsInValues, yKeyVisitOkValues]
        | seq x => simp [yfindKeyDiffsInValues, yKeyVisitOkValues]
        | tagged t x => simp [yfindKeyDiffsInValues, yKeyVisitOkValues]
      | seq xs =>
        cases b with
        | seq ys =>
          by_cases hc : ctx.config.array_same_order = true ∧
              xs.length = ys.length
          · simp [yfindKeyDiffsInValues, yKeyVisitOkValues, hc,
              yfindKeyDiffsInArrays]
          · simp [yfindKeyDiffsInValues, yKeyVisitOkValues, hc]
        | null => simp [yfindKeyDiffsInValues, yKeyVisitOkValues]
        | bool x => simp [yfindKeyDiffsInValues, yKeyVisitOkValues]
        | num x => simp [yfindKeyDiffsInValues, yKeyVisitOkValues]
        | str x => simp [yfindKeyDiffsInValues, yKeyVisitOkValues]
        | map x => simp [yfindKeyDiffsInValues, yKeyVisitOkValues]
        | tagged t x => simp [yfindKeyDiffsInValues, yKeyVisitOkValues]
      | null =>
        cases b <;> simp [yfindKeyDiffsInValues, yKeyVisitOkValues]
      | bool x =>
        cases b <;> simp [yfindKeyDiffsInValues, yKeyVisitOkValues]
      | num x =>
        cases b <;> simp [yfindKeyDiffsInValues, yKeyVisitOkValues]
      | str x =>
        cases b <;> simp [yfindKeyDiffsInValues, yKeyVisitOkValues]
      | tagged t x =>
        cases b <;> simp [yfindKeyDiffsInValues, yKeyVisitOkValues]

/-- The YAML Key Comparator returns normally exactly when its visited-key
predicate holds. -/
theorem ykeyCheck_isSome_iff (ctx : WorkingContext) (key : String)
    (a b : List (YVal × YVal)) :
    (ykeyCheck ctx key a b).isSome ↔ yKeyVisitOk ctx a b = true := by
  rw [ykeyCheck, yKeyVisitOk]
  cases hbk : ygetBKeys key b with
  | none =>
    have := ygetBKeys_isSome_iff key b
    rw [hbk] at this
    simp at this
    simp [hbk, this]
  | some bKeys =>
    have hb := ygetBKeys_isSome_iff key b
    rw [hbk] at hb
    simp at hb
    have ha := (ykey_isSome_iff (sizeOf a)).1 ctx key a b bKeys le_rfl
    cases hca : ykeyCheckA ctx key a b bKeys with
    | none =>
      rw [hca] at ha
      simp at ha
      simp [hbk, hca, hb, ha]
    | some r =>
      rw [hca] at ha
      simp at ha
      simp [hbk, hca, ha]
      exact hb

/-!
## The claims
-/

/-- C1: the claimed multiset behaviour — exactly `max(count_A(v) -
count_B(v), 0)` `AHas`/`BMisses` pairs per distinct value — is violated by
the JSON Array Comparator, whose `contains`-based `fill_diff_vectors`
emits *zero* `AHas`/`BMisses` pairs for `"x"` when A has three occurrences
and B has one; the YAML Array Comparator's `count_occurrences` emits the
required two pairs on the same input. -/
theorem claim_C1_array_multiset :
    arrayCheck ⟨⟨"a.json"⟩, ⟨"b.json"⟩, ⟨false⟩⟩ ""
      [("key", .arr [.str "x", .str "x", .str "x"])]
      [("key", .arr [.str "x"])] = [] ∧
    countDesc .AHas "x"
      (arrayCheck ⟨⟨"a.json"⟩, ⟨"b.json"⟩, ⟨false⟩⟩ ""
        [("key", .arr [.str "x", .str "x", .str "x"])]
        [("key", .arr [.str "x"])]) = 0 ∧
    yarrayCheck ⟨⟨"a.yaml"⟩, ⟨"b.yaml"⟩, ⟨false⟩⟩ ""
      [(.str "key", .seq [.str "x", .str "x", .str "x"])]
      [(.str "key", .seq [.str "x"])] =
      some [⟨"key", .AHas, "x"⟩, ⟨"key", .AHas, "x"⟩,
        ⟨"key", .BMisses, "x"⟩, ⟨"key", .BMisses, "x"⟩] ∧
    countDesc .AHas "x"
      ((yarrayCheck ⟨⟨"a.yaml"⟩, ⟨"b.yaml"⟩, ⟨false⟩⟩ ""
        [(.str "key", .seq [.str "x", .str "x", .str "x"])]
        [(.str "key", .seq [.str "x"])]).getD []) = 2 ∧
    countDesc .BMisses "x"
      ((yarrayCheck ⟨⟨"a.yaml"⟩, ⟨"b.yaml"⟩, ⟨false⟩⟩ ""
        [(.str "key", .seq [.str "x", .str "x", .str "x"])]
        [(.str "key", .seq [.str "x"])]).getD []) = 2 := by
  have h1 : arrayCheck ⟨⟨"a.json"⟩, ⟨"b.json"⟩, ⟨false⟩⟩ ""
      [("key", .arr [.str "x", .str "x", .str "x"])]
      [("key", .arr [.str "x"])] = [] := by
    simp [arrayCheck, arrayCheckEntries, findArrayDiffsInValues,
      fillDiffVectorsEmit, jContains, JObj.get, JVal.beq, format_key]
  have h2 : yarrayCheck ⟨⟨"a.yaml"⟩, ⟨"b.yaml"⟩, ⟨false⟩⟩ ""
      [(.str "key", .seq [.str "x", .str "x", .str "x"])]
      [(.str "key", .seq [.str "x"])] =
      some [⟨"key", .AHas, "x"⟩, ⟨"key", .AHas, "x"⟩,
        ⟨"key", .BMisses, "x"⟩, ⟨"key", .BMisses, "x"⟩] := by
    simp +decide [yarrayCheck, yarrayCheckEntries, yfindArrayDiffsInValues,
      ycountOccurrences, ycountItems, ybump, ycalculateDifference,
      ylookupCount, yemit, YMap.get, YVal.beq, YVal.asStr, yToString,
      format_key]
  refine ⟨h1, ?_, h2, ?_, ?_⟩
  · rw [h1]
    simp [countDesc]
  · rw [h2]
    simp [countDesc, List.filter]
  · rw [h2]
    simp [countDesc, List.filter]

/-- C2: multiset conservation — in every Array Comparator output (JSON
and YAML alike), for every distinct value, the number of `AHas` records
equals the number of `BMisses` records, and the number of `BHas` records
equals the number of `AMisses` records. -/
theorem claim_C2_conservation :
    (∀ (ctx : WorkingContext) (key : String)
      (a b : List (String × JVal)) (v : String),
      countDesc .AHas v (arrayCheck ctx key a b) =
        countDesc .BMisses v (arrayCheck ctx key a b) ∧
      countDesc .BHas v (arrayCheck ctx key a b) =
        countDesc .AMisses v (arrayCheck ctx key a b)) ∧
    (∀ (ctx : WorkingContext) (key : String)
      (a b : List (YVal × YVal)) (v : String),
      countDesc .AHas v ((yarrayCheck ctx key a b).getD []) =
        countDesc .BMisses v ((yarrayCheck ctx key a b).getD []) ∧
      countDesc .BHas v ((yarrayCheck ctx key a b).getD []) =
        countDesc .AMisses v ((yarrayCheck ctx key a b).getD [])) := by
  constructor
  · intro ctx key a b v
    rw [arrayCheck]
    split
    · simp [countDesc_nil]
    · exact (json_conserv_all (sizeOf a)).2 ctx key a b le_rfl v
  · intro ctx key a b v
    rw [yarrayCheck]
    split
    · simp [countDesc_nil]
    · cases h : yarrayCheckEntries ctx key a b with
      | none => simp [countDesc_nil]
      | some ds =>
        simpa using
          (yaml_conserv_all (sizeOf a)).2 ctx key a b ds le_rfl h v

/-- C3: idempotence holds for all four JSON comparators on any
well-formed document compared against itself, in both modes; but the YAML
Key Comparator violates it — in ordered mode, comparing `\x7b"k": []\x7d`
against itself panics (`find_key_diffs_in_arrays` unwraps `as_mapping()`
on a sequence) instead of returning an empty list. -/
theorem claim_C3_idempotence :
    (∀ (ctx : WorkingContext) (key : String)
      (es : List (String × JVal)), JObj.wfb es = true →
      keyCheck ctx key es es = [] ∧ typeCheck ctx key es es = [] ∧
      valueCheck ctx key es es = [] ∧ arrayCheck ctx key es es = []) ∧
    ykeyCheck ⟨⟨"a.yaml"⟩, ⟨"b.yaml"⟩, ⟨true⟩⟩ ""
      [(.str "k", .seq [])] [(.str "k", .seq [])] = none := by
  constructor
  · intro ctx key es hwf
    have h := (self_diffs_empty (sizeOf es)).2.1 ctx key es le_rfl hwf
    refine ⟨h.1, h.2.1, h.2.2.1, ?_⟩
    rw [arrayCheck]
    split
    · rfl
    · exact h.2.2.2
  · simp +decide [ykeyCheck, ykeyCheckA, ygetBKeys, yfindKeyDiffsInValues,
      yfindKeyDiffsInArrays, YMap.get, YVal.beq, YVal.asStr, format_key]

/-- C3 witness: the general idempotence statement applied to the concrete
well-formed document `\x7b"k": [1]\x7d` in ordered mode. -/
theorem claim_C3_idempotence_witness :
    keyCheck ⟨⟨"a.json"⟩, ⟨"b.json"⟩, ⟨true⟩⟩ ""
      [("k", .arr [.num 1])] [("k", .arr [.num 1])] = [] ∧
    typeCheck ⟨⟨"a.json"⟩, ⟨"b.json"⟩, ⟨true⟩⟩ ""
      [("k", .arr [.num 1])] [("k", .arr [.num 1])] = [] ∧
    valueCheck ⟨⟨"a.json"⟩, ⟨"b.json"⟩, ⟨true⟩⟩ ""
      [("k", .arr [.num 1])] [("k", .arr [.num 1])] = [] ∧
    arrayCheck ⟨⟨"a.json"⟩, ⟨"b.json"⟩, ⟨true⟩⟩ ""
      [("k", .arr [.num 1])] [("k", .arr [.num 1])] = [] :=
  claim_C3_idempotence.1 ⟨⟨"a.json"⟩, ⟨"b.json"⟩, ⟨true⟩⟩ ""
    [("k", .arr [.num 1])]
    (by simp [JObj.wfb, jwfbEntries, JVal.wfb, jwfbList])

/-- C4: mode exclusivity — the Array Comparator's output is empty in
ordered mode, and in unordered mode the Key/Type/Value comparators
coincide with their variants that never recurse into array interiors. -/
theorem claim_C4_mode_exclusivity :
    (∀ (ctx : WorkingContext) (key : String)
      (a b : List (String × JVal)), ctx.config.array_same_order = true →
      arrayCheck ctx key a b = []) ∧
    (∀ (ctx : WorkingContext) (key : String)
      (a b : List (String × JVal)), ctx.config.array_same_order = false →
      keyCheck ctx key a b = keyCheckNoArr ctx key a b ∧
      typeCheck ctx key a b = typeCheckNoArr ctx key a b ∧
      valueCheck ctx key a b = valueCheckNoArr ctx key a b) := by
  constructor
  · intro ctx key a b h
    exact arrayCheck_of_ordered ctx h key a b
  · intro ctx key a b h
    exact ⟨keyCheck_eq_noArr ctx h key a b, typeCheck_eq_noArr ctx h key a b,
      valueCheck_eq_noArr ctx h key a b⟩

/-- C4 witness: mode exclusivity at a concrete ordered and a concrete
unordered run. -/
theorem claim_C4_mode_exclusivity_witness :
    arrayCheck ⟨⟨"a.json"⟩, ⟨"b.json"⟩, ⟨true⟩⟩ ""
      [("k", .arr [.num 1])] [("k", .arr [.num 2])] = [] ∧
    keyCheck ⟨⟨"a.json"⟩, ⟨"b.json"⟩, ⟨false⟩⟩ ""
      [("k", .arr [.num 1])] [("k", .arr [.num 2])] =
      keyCheckNoArr ⟨⟨"a.json"⟩, ⟨"b.json"⟩, ⟨false⟩⟩ ""
        [("k", .arr [.num 1])] [("k", .arr [.num 2])] :=
  ⟨claim_C4_mode_exclusivity.1 ⟨⟨"a.json"⟩, ⟨"b.json"⟩, ⟨true⟩⟩ "" _ _ rfl,
   (claim_C4_mode_exclusivity.2 ⟨⟨"a.json"⟩, ⟨"b.json"⟩, ⟨false⟩⟩ "" _ _
     rfl).1⟩

/-- C5: symmetry of key diffs — for well-formed documents, a record is in
the Key Comparator's output for `(A, B)` exactly when the same record is
in the output for `(B, A)` under the swapped file labels. -/
theorem claim_C5_key_symmetry (ctx : WorkingContext) (key : String)
    (ea eb : List (String × JVal)) (ha : JObj.wfb ea = true)
    (hb : JObj.wfb eb = true) :
    ∀ d, d ∈ keyCheck ctx key ea eb ↔
      d ∈ keyCheck (swapContext ctx) key eb ea :=
  (keyCheck_symm_all (sizeOf ea + sizeOf eb)).2.1 ctx key ea eb le_rfl ha hb

/-- C5 witness: the symmetry instance at `A = \x7b"x": 1\x7d`,
`B = \x7b"y": 1\x7d`. -/
theorem claim_C5_key_symmetry_witness :
    KeyDiff.mk "x" "a.json" "b.json" ∈
      keyCheck ⟨⟨"a.json"⟩, ⟨"b.json"⟩, ⟨false⟩⟩ ""
        [("x", .num 1)] [("y", .num 1)] ↔
    KeyDiff.mk "x" "a.json" "b.json" ∈
      keyCheck (swapContext ⟨⟨"a.json"⟩, ⟨"b.json"⟩, ⟨false⟩⟩) ""
        [("y", .num 1)] [("x", .num 1)] :=
  claim_C5_key_symmetry ⟨⟨"a.json"⟩, ⟨"b.json"⟩, ⟨false⟩⟩ ""
    [("x", .num 1)] [("y", .num 1)]
    (by simp [JObj.wfb, jwfbEntries, JVal.wfb])
    (by simp [JObj.wfb, jwfbEntries, JVal.wfb])
    (KeyDiff.mk "x" "a.json" "b.json")

/-- C6 counterexample: on `\x7b"k": [1]\x7d` vs `\x7b"k": [2]\x7d` in
unordered mode, the JSON Value Comparator renders the opaque array leaves
canonically (`[1]` / `[2]`), but the YAML Value Comparator replaces both
rendered values by the fixed sentinel string `Array differences present`,
which is not the canonical text form of either side. -/
theorem claim_C6_rendering_counterexample :
    valueCheck ⟨⟨"a.json"⟩, ⟨"b.json"⟩, ⟨false⟩⟩ ""
      [("k", .arr [.num 1])] [("k", .arr [.num 2])] =
      [⟨"k", "[1]", "[2]"⟩] ∧
    yvalueCheck ⟨⟨"a.yaml"⟩, ⟨"b.yaml"⟩, ⟨false⟩⟩ ""
      [(.str "k", .seq [.num 1])] [(.str "k", .seq [.num 2])] =
      some [⟨"k", "Array differences present",
        "Array differences present"⟩] ∧
    yRender (.seq [.num 1]) ≠ "Array differences present" := by
  refine ⟨?_, ?_, ?_⟩
  · simp +decide [valueCheck, findValueDiffsInValues,
      findValueDiffsInArrays, JObj.get, JVal.beq, jbeqList, jbeqEntries,
      format_key, JVal.renderLeaf, JVal.toJsonString, jsonStringList]
  · simp +decide [yvalueCheck, yfindValueDiffsInValues,
      yfindValueDiffsInArrays, YMap.get, YVal.beq, YVal.asStr, YVal.isSeq,
      format_key, yRender, yToString]
  · simp +decide [yRender, yToString]

/-- C6 (amended): every JSON value diff renders both sides by the
string-raw / canonical-serialization rule (strings raw, arrays as
`[1,2,3,4]`-style text), with no sentinel; every YAML value diff either
renders both sides by the `Stringable` rule — strings raw, null, booleans
and numbers canonical, and the fixed kind names `array` / `mapping` /
`tagged` for the container kinds, so a mapping compared against the
number `5` yields the pair (`mapping`, `5`) — or is the fixed sentinel
pair `Array differences present` emitted for an unequal sequence pair. -/
theorem claim_C6_rendering :
    (∀ (ctx : WorkingContext) (p : String) (ea eb : List (String × JVal)),
      ∀ d ∈ valueCheck ctx p ea eb, ∃ va vb : JVal,
        va.beq vb = false ∧ d.value1 = va.renderLeaf ∧
        d.value2 = vb.renderLeaf) ∧
    (∀ s : String, (JVal.str s).renderLeaf = s) ∧
    (JVal.arr [.num 1, .num 2, .num 3, .num 4]).renderLeaf = "[1,2,3,4]" ∧
    (∀ (ctx : WorkingContext) (p : String) (ea eb : List (YVal × YVal))
      (ds : List ValueDiff), yvalueCheck ctx p ea eb = some ds →
      ∀ d ∈ ds, yDiffShape d) ∧
    (∀ s : String, yRender (.str s) = s) ∧
    yRender (.seq [.num 1]) = "array" ∧
    yRender (.map [(.str "a", .num 1)]) = "mapping" ∧
    yRender (.tagged "t" (.num 1)) = "tagged" ∧
    yvalueCheck ⟨⟨"a.yaml"⟩, ⟨"b.yaml"⟩, ⟨false⟩⟩ ""
      [(.str "k", .map [(.str "a", .num 1)])] [(.str "k", .num 5)] =
      some [⟨"k", "mapping", "5"⟩] := by
  refine ⟨?_, fun s => rfl, ?_, ?_, fun s => rfl, rfl, rfl, rfl, ?_⟩
  · intro ctx p ea eb d hd
    exact (json_valueDiff_shape (sizeOf ea)).2.1 ctx p ea eb le_rfl d hd
  · simp +decide [JVal.renderLeaf, JVal.toJsonString, jsonStringList]
  · intro ctx p ea eb ds hds
    exact (yaml_valueDiff_shape (sizeOf ea)).2.1 ctx p ea eb ds le_rfl hds
  · simp +decide [yvalueCheck, yfindValueDiffsInValues,
      yfindValueDiffsInArrays, YMap.get, YVal.beq, YVal.asStr, YVal.isSeq,
      format_key, yRender, yToString]

/-- C6 witness: the rendering shape of the concrete diff emitted for
`\x7b"n": "s"\x7d` vs `\x7b"n": 5\x7d`. -/
theorem claim_C6_rendering_witness :
    ∃ va vb : JVal, va.beq vb = false ∧
      (ValueDiff.mk "n" "s" "5").value1 = va.renderLeaf ∧
      (ValueDiff.mk "n" "s" "5").value2 = vb.renderLeaf :=
  claim_C6_rendering.1 ⟨⟨"a.json"⟩, ⟨"b.json"⟩, ⟨false⟩⟩ ""
    [("n", .str "s")] [("n", .num 5)] ⟨"n", "s", "5"⟩
    (by simp +decide [valueCheck, findValueDiffsInValues, JObj.get,
      JVal.beq, format_key, JVal.renderLeaf, JVal.toJsonString])

/-- C7: in ordered mode the JSON Key Comparator recurses over
equal-length array pairs element-by-element under `path[i]`, and produces
nothing for array pairs of differing length; but the YAML Key Comparator
panics instead of recursing — on a shared key holding equal-length
sequences of nested mappings with differing keys it returns no diff list
at all (`find_key_diffs_in_arrays` unwraps `as_mapping()` on the
sequence). -/
theorem claim_C7_ordered_key_recursion :
    (∀ (ctx : WorkingContext) (key : String) (xs ys : List JVal),
      ctx.config.array_same_order = true → xs.length = ys.length →
      findKeyDiffsInValues ctx key (.arr xs) (.arr ys) =
        ((xs.zip ys).enumFrom 0).flatMap fun p =>
          findKeyDiffsInValues ctx (indexKey key p.1) p.2.1 p.2.2) ∧
    (∀ (ctx : WorkingContext) (key : String) (xs ys : List JVal),
      xs.length ≠ ys.length →
      findKeyDiffsInValues ctx key (.arr xs) (.arr ys) = []) ∧
    ykeyCheck ⟨⟨"a.yaml"⟩, ⟨"b.yaml"⟩, ⟨true⟩⟩ ""
      [(.str "k", .seq [.map [(.str "x", .num 1)]])]
      [(.str "k", .seq [.map [(.str "y", .num 1)]])] = none := by
  refine ⟨?_, ?_, ?_⟩
  · intro ctx key xs ys h1 h2
    rw [findKeyDiffsInValues_arr_of_ordered ctx key xs ys h1 h2]
    exact findKeyDiffsInArrays_eq_flatMap ctx key 0 xs ys h2
  · intro ctx key xs ys h2
    exact findKeyDiffsInValues_arr_len_ne ctx key xs ys h2
  · simp +decide [ykeyCheck, ykeyCheckA, ygetBKeys, yfindKeyDiffsInValues,
      yfindKeyDiffsInArrays, YMap.get, YVal.beq, YVal.asStr, format_key]

/-- C7 witness: the ordered element-by-element recursion at a concrete
pair of one-element arrays of nested objects. -/
theorem claim_C7_ordered_key_recursion_witness :
    findKeyDiffsInValues ⟨⟨"a.json"⟩, ⟨"b.json"⟩, ⟨true⟩⟩ "k"
      (.arr [.obj [("x", .num 1)]]) (.arr [.obj [("y", .num 1)]]) =
      (([JVal.obj [("x", .num 1)]].zip
        [JVal.obj [("y", .num 1)]]).enumFrom 0).flatMap fun p =>
        findKeyDiffsInValues ⟨⟨"a.json"⟩, ⟨"b.json"⟩, ⟨true⟩⟩
          (indexKey "k" p.1) p.2.1 p.2.2 :=
  claim_C7_ordered_key_recursion.1 ⟨⟨"a.json"⟩, ⟨"b.json"⟩, ⟨true⟩⟩ "k"
    [.obj [("x", .num 1)]] [.obj [("y", .num 1)]] rfl rfl

/-- C8: for a well-formed `b`, the Key Comparator's output is exactly
the walk over `a`'s entries — recursion when the key is shared, the
`(path, file_a, file_b)` record when it is missing from `b` — followed by
one `(path, file_b, file_a)` record for each key of `b` absent from `a`;
and a shared key holding non-object, non-array leaves on both sides
contributes no key diff. -/
theorem claim_C8_key_emission (ctx : WorkingContext) (key : String)
    (a b : List (String × JVal)) (hb : JObj.wfb b = true) :
    keyCheck ctx key a b =
      (a.flatMap fun e =>
        match JObj.get b e.1 with
        | some bv => findKeyDiffsInValues ctx (format_key key e.1) e.2 bv
        | none => [KeyDiff.mk (format_key key e.1) ctx.file_a.name
            ctx.file_b.name]) ++
      ((b.filter fun e => (JObj.get a e.1).isNone).map fun e =>
        KeyDiff.mk (format_key key e.1) ctx.file_b.name
          ctx.file_a.name) ∧
    (∀ (p : String) (va vb : JVal), va.getType ≠ .Object →
      va.getType ≠ .Array → vb.getType ≠ .Object → vb.getType ≠ .Array →
      findKeyDiffsInValues ctx p va vb = []) := by
  constructor
  · exact keyCheck_closed ctx key a b (JObj.nodup_of_wfb hb)
  · intro p va vb h1 h2 h3 h4
    cases va <;> cases vb <;>
      simp_all [findKeyDiffsInValues, JVal.getType]

/-- C8 witness: the closed emission form at `\x7b"x": 1\x7d` vs
`\x7b"y": 2\x7d`, and the silence of a shared leaf key of mismatched
type. -/
theorem claim_C8_key_emission_witness :
    keyCheck ⟨⟨"a.json"⟩, ⟨"b.json"⟩, ⟨false⟩⟩ ""
      [("x", .num 1)] [("y", .num 2)] =
      (([("x", JVal.num 1)].flatMap fun e =>
        match JObj.get [("y", JVal.num 2)] e.1 with
        | some bv => findKeyDiffsInValues ⟨⟨"a.json"⟩, ⟨"b.json"⟩, ⟨false⟩⟩
            (format_key "" e.1) e.2 bv
        | none => [KeyDiff.mk (format_key "" e.1) "a.json" "b.json"]) ++
      (([("y", JVal.num 2)].filter fun e =>
        (JObj.get [("x", JVal.num 1)] e.1).isNone).map fun e =>
        KeyDiff.mk (format_key "" e.1) "b.json" "a.json")) ∧
    findKeyDiffsInValues ⟨⟨"a.json"⟩, ⟨"b.json"⟩, ⟨false⟩⟩ "p"
      (.num 1) (.str "s") = [] :=
  have h := claim_C8_key_emission ⟨⟨"a.json"⟩, ⟨"b.json"⟩, ⟨false⟩⟩ ""
    [("x", .num 1)] [("y", .num 2)]
    (by simp [JObj.wfb, jwfbEntries, JVal.wfb])
  ⟨h.1, h.2 "p" (.num 1) (.str "s") (by decide) (by decide) (by decide)
    (by decide)⟩

/-- C9: the Type Comparator visits exactly the shared keys; at each
visited path the diff carrying that exact path exists if and only if the
two values' kind tags differ, in which case it records the two kinds'
display names; and every display name is one of
null, bool, number, string, array, object. -/
theorem claim_C9_type_diffs (ctx : WorkingContext) :
    (∀ (key : String) (a b : List (String × JVal)),
      typeCheck ctx key a b = a.flatMap fun e =>
        match JObj.get b e.1 with
        | some bv => findTypeDiffsInValues ctx (format_key key e.1) e.2 bv
        | none => []) ∧
    (∀ (p : String) (va vb : JVal), p.isEmpty = false →
      (findTypeDiffsInValues ctx p va vb).filter
          (fun d => decide (d.key = p)) =
        if va.getType = vb.getType then []
        else [TypeDiff.mk p va.getType.toDisplayString
          vb.getType.toDisplayString]) ∧
    (∀ v : JVal, v.getType.toDisplayString ∈
      (["null", "bool", "number", "string", "array", "object"] :
        List String)) := by
  refine ⟨fun key a b => typeCheck_eq_flatMap ctx key a b, ?_,
    valueTypeName_mem⟩
  intro p va vb hp
  exact findTypeDiffs_filter_at_path ctx p va vb hp

/-- C9 witness: the at-path characterization at the concrete pair
`1` vs `"s"` under path `k`. -/
theorem claim_C9_type_diffs_witness :
    (findTypeDiffsInValues ⟨⟨"a.json"⟩, ⟨"b.json"⟩, ⟨false⟩⟩ "k"
        (.num 1) (.str "s")).filter
        (fun d => decide (d.key = "k")) =
      if (JVal.num 1).getType = (JVal.str "s").getType then []
      else [TypeDiff.mk "k" (JVal.num 1).getType.toDisplayString
        (JVal.str "s").getType.toDisplayString] :=
  (claim_C9_type_diffs ⟨⟨"a.json"⟩, ⟨"b.json"⟩, ⟨false⟩⟩).2.1 "k"
    (.num 1) (.str "s") rfl

/-- C10 counterexample: every mapping key of `\x7b"k": []\x7d` is a
string, yet the YAML Key Comparator does not return normally on this
input compared with itself in ordered mode (it panics inside
`find_key_diffs_in_arrays` before formatting any key). -/
theorem claim_C10_string_keys_counterexample :
    (([(YVal.str "k", YVal.seq [])] :
      List (YVal × YVal)).all fun p => p.1.isStr) = true ∧
    ykeyCheck ⟨⟨"a.yaml"⟩, ⟨"b.yaml"⟩, ⟨true⟩⟩ ""
      [(.str "k", .seq [])] [(.str "k", .seq [])] = none := by
  constructor
  · decide
  · simp +decide [ykeyCheck, ykeyCheckA, ygetBKeys, yfindKeyDiffsInValues,
      yfindKeyDiffsInArrays, YMap.get, YVal.beq, YVal.asStr, format_key]

/-- C10 (amended): each YAML comparator returns normally exactly when its
panic condition is absent — Type and Value return normally iff at every
recursively visited mapping pair every A-side key that is shared with B
is a string (only shared keys are formatted); Array never panics in
ordered mode and otherwise returns normally iff every shared A-side key
at every visited mapping pair is a string; Key returns normally iff every
key of both sides at every visited mapping pair is a string and no
visited shared pair is an equal-length sequence pair in ordered mode. -/
theorem claim_C10_string_keys (ctx : WorkingContext) (key : String)
    (a b : List (YVal × YVal)) :
    ((ytypeCheck ctx key a b).isSome ↔
      ySharedVisitOkEntries ctx a b = true) ∧
    ((yvalueCheck ctx key a b).isSome ↔
      ySharedVisitOkEntries ctx a b = true) ∧
    ((yarrayCheck ctx key a b).isSome ↔ yArrayVisitOk ctx a b = true) ∧
    ((ykeyCheck ctx key a b).isSome ↔ yKeyVisitOk ctx a b = true) :=
  ⟨(ytype_isSome_iff (sizeOf a)).1 ctx key a b le_rfl,
   (yvalue_isSome_iff (sizeOf a)).1 ctx key a b le_rfl,
   yarrayCheck_isSome_iff ctx key a b,
   ykeyCheck_isSome_iff ctx key a b⟩

end Dtf
